import Mathlib

/-!
Shallow embedding of the peer-selection engine in src/src/peer_select.cc
(squid). Pure data is modelled directly; the asynchronous state machine is
modelled as explicit state passing on a selection-context record `PsState`,
with external collaborators (ACL checker, net-db, DNS cache, parent
strategies, ICP client, configuration) supplied as an environment record
`Env` of pure functions. Ghost fields on `PsState` (`log`, `sizeTrace`,
`callbackCount`, `timerPending`, `freed`, `derefAtLookup`,
`derefAtComplete`) record observable events: every forward-server append,
the paths-length observed at each capacity check of the DNS stage, callback
invocations, the pending peerPingTimeout event, context teardown, and
evaluation of the entry pointer inside the DNS-stage logging statements.
-/

set_option linter.unusedVariables false
set_option linter.unreachableTactic false
set_option linter.unusedTactic false

namespace PeerSelect

/-- A network address (Ip::Address): an opaque host identifier plus the
address family bit consulted by the TPROXY check (IsIPv4). -/
structure Addr where
  ip : Nat
  v4 : Bool
deriving DecidableEq

/-- entry->ping_status values PING_NONE, PING_WAITING, PING_DONE. -/
inductive PingStatus
  | pnone
  | waiting
  | done
deriving DecidableEq

/-- The direct decision: DIRECT_UNKNOWN, DIRECT_NO, DIRECT_MAYBE, DIRECT_YES. -/
inductive Direct
  | unknown
  | no
  | maybe
  | yes
deriving DecidableEq

/-- neighborType result: PEER_PARENT, PEER_SIBLING, or PEER_NONE. -/
inductive PeerKind
  | parent
  | sibling
  | neither
deriving DecidableEq

/-- The hier_code tags emitted by the engine. -/
inductive HierCode
  | hierNone
  | pinnedConn
  | cdParentHit
  | cdSiblingHit
  | closestParent
  | closestParentMiss
  | firstParentMiss
  | parentHit
  | siblingHit
  | closestDirect
  | hierDirect
  | defaultParent
  | userhashParent
  | sourcehashParent
  | carp
  | roundrobinParent
  | firstupParent
  | anyOldParent
deriving DecidableEq

/-- Request protocol, as far as the engine inspects it (PROTO_WAIS check). -/
inductive Protocol
  | http
  | wais
  | other
deriving DecidableEq

/-- A configured peer (neighbor cache), with the fields read by this file:
host, http_port, in_addr, options.no_tproxy, options.closest_only,
basetime, weight. -/
structure Peer where
  host : String
  httpPort : Nat
  inAddr : Addr
  noTproxy : Bool
  closestOnly : Bool
  basetime : Int
  weight : Int
deriving DecidableEq

/-- A pinned connection attached to the request: its pinned peer (possibly
none) and whether validatePinnedConnection yields an open connection. -/
structure PinnedConn where
  pinnedPeer : Option Peer
  validOpen : Bool
deriving DecidableEq

/-- The HTTP request fields read by the engine. -/
structure Request where
  host : String
  port : Nat
  protocol : Protocol
  hierarchical : Bool
  noDirect : Bool
  loopdetect : Bool
  spoofClientIp : Bool
  clientAddr : Addr
  pinned : Option PinnedConn
deriving DecidableEq

/-- The cache entry fields read by the engine: url, KEY_PRIVATE flag,
ping_status. -/
structure Entry where
  url : String
  keyPrivate : Bool
  pingStatus : PingStatus
deriving DecidableEq

/-- A forward-server record: (optional peer reference, hier_code tag). -/
structure FwdServer where
  peerRef : Option Peer
  code : HierCode
deriving DecidableEq

/-- A resolved destination (Comm::Connection): remote address, port,
peer-type tag, and the configured outgoing (local) address chosen by
getOutgoingAddress. -/
structure Destination where
  remote : Addr
  port : Nat
  peerType : HierCode
  localAddr : Option Addr
deriving DecidableEq

/-- A DNS result (ipcache_addrs): rotation cursor cur and the address
array in_addrs; count is the array length. -/
structure IpcacheAddrs where
  cur : Nat
  inAddrs : List Addr
deriving DecidableEq

def IpcacheAddrs.count (ia : IpcacheAddrs) : Nat := ia.inAddrs.length

/-- The ping_data aggregate of the selection context. -/
structure PingData where
  nSent : Nat
  nRecv : Nat
  nRepliesExpected : Nat
  timeoutMs : Nat
  timedout : Bool
  startMs : Int
  stopMs : Int
  wRtt : Int
  pRtt : Nat
deriving DecidableEq

/-- External collaborators and configuration, as pure functions: Config
fields, ACL list presence, net-db queries, neighbor enumeration, the eight
parent strategies, the ICP ping subsystem's outputs, the DNS cache, and
the debug-level switches for section 44 (level-1 and level-2 statements). -/
structure Env where
  forwardMaxTries : Nat
  preferDirect : Bool
  nonhierarchicalDirect : Bool
  useIcmp : Bool
  queryIcmp : Bool
  minDirectRtt : Nat
  minDirectHops : Nat
  neighborsDoPrivateKeys : Bool
  hasAlwaysDirectAcl : Bool
  hasNeverDirectAcl : Bool
  useCacheDigests : Bool
  peers : List Peer
  dbg1 : Bool
  dbg2 : Bool
  nowMs : Int
  netdbHostRtt : String → Nat
  netdbHostHops : String → Nat
  whichPeer : Addr → Option Peer
  neighborsCount : Request → Nat
  neighborType : Peer → Request → PeerKind
  peerHTTPOkay : Peer → Request → Bool
  peerAllowedToUse : Peer → Request → Bool
  neighborsDigestSelect : Request → Option Peer
  netdbClosestParent : Request → Option Peer
  getDefaultParent : Request → Option Peer
  peerUserHashSelectParent : Request → Option Peer
  peerSourceHashSelectParent : Request → Option Peer
  carpSelectParent : Request → Option Peer
  getRoundRobinParent : Request → Option Peer
  getWeightedRoundRobinParent : Request → Option Peer
  getFirstUpParent : Request → Option Peer
  getAnyParent : Request → Option Peer
  udpExpected : Nat
  udpSent : Nat
  udpTimeoutMs : Nat
  dns : String → Option IpcacheAddrs
  outgoingAddr : Request → Addr → Option Addr

/-- The selection context ps_state, plus ghost observation fields. -/
structure PsState where
  request : Request
  entry : Option Entry
  alwaysDirect : Int
  neverDirect : Int
  direct : Direct
  servers : List FwdServer
  paths : List Destination
  hit : Option Peer
  hitKind : PeerKind
  closestParentMiss : Option Addr
  firstParentMiss : Option Addr
  ping : PingData
  cbValid : Bool
  callbackCount : Nat
  timerPending : Bool
  freed : Bool
  log : List FwdServer
  sizeTrace : List Nat
  derefAtLookup : Bool
  derefAtComplete : Bool
deriving DecidableEq

/-- entry ping status of the context, when an entry is attached. -/
def entryPing (st : PsState) : Option PingStatus := st.entry.map Entry.pingStatus

/-- Assign entry->ping_status (no-op when no entry is attached). -/
def setEntryPing (st : PsState) (s : PingStatus) : PsState :=
  match st.entry with
  | some e => { st with entry := some { e with pingStatus := s } }
  | none => st

/-- peerAddFwdServer: append a record at the tail of the servers list (the
source walks to the tail pointer). The ghost log records every append. -/
def addFwd (st : PsState) (p : Option Peer) (c : HierCode) : PsState :=
  { st with servers := st.servers ++ [⟨p, c⟩], log := st.log ++ [⟨p, c⟩] }

/-- peerCheckNetdbDirect: true iff direct is not NO and either the measured
origin RTT is known and within minimum_direct_rtt, or the origin hops are
known and within minimum_direct_hops, or a closest-parent-miss peer exists
and the origin RTT is within its RTT. False when ICMP net-db is compiled
out. -/
def peerCheckNetdbDirect (env : Env) (st : PsState) : Bool :=
  if ¬env.useIcmp then false
  else if st.direct = .no then false
  else
    let myrtt := env.netdbHostRtt st.request.host
    if myrtt ≠ 0 ∧ myrtt ≤ env.minDirectRtt then true
    else
      let myhops := env.netdbHostHops st.request.host
      if myhops ≠ 0 ∧ myhops ≤ env.minDirectHops then true
      else
        match st.closestParentMiss.bind env.whichPeer with
        | none => false
        | some _ => if myrtt ≠ 0 ∧ myrtt ≤ st.ping.pRtt then true else false

/-- peerSelectIcpPing: the fan-out gate. Returns the neighbor count unless
a gate returns 0 first. Caller guarantees an entry with ping_status
PING_NONE and direct distinct from DIRECT_YES (the asserts). -/
def peerSelectIcpPing (env : Env) (request : Request) (direct : Direct)
    (entry : Entry) : Nat :=
  if request.hierarchical = false ∧ direct ≠ .no then 0
  else if entry.keyPrivate = true ∧ env.neighborsDoPrivateKeys = false then
    if direct ≠ .no then 0
    else env.neighborsCount request
  else env.neighborsCount request

/-- peerSelectPinned: prefer a validated pinned connection; on success also
set ping_status to PING_DONE to skip ICP. -/
def peerSelectPinned (env : Env) (st : PsState) : PsState :=
  match st.request.pinned with
  | none => st
  | some pc =>
    if pc.validOpen then
      match pc.pinnedPeer with
      | some pear =>
        if env.peerAllowedToUse pear st.request then
          setEntryPing (addFwd st (some pear) .pinnedConn) .done
        else st
      | none =>
        if st.direct ≠ .no then
          setEntryPing (addFwd st none .pinnedConn) .done
        else st
    else st

/-- peerGetSomeNeighbor: digest lookup, then net-db closest parent, then
the ICP/HTCP ping fan-out. When replies are expected, the ping timer is
installed (ghost timerPending) and ping_status becomes PING_WAITING. -/
def peerGetSomeNeighbor (env : Env) (st : PsState) : PsState :=
  if st.direct = .yes then setEntryPing st .done
  else
    match (if env.useCacheDigests then env.neighborsDigestSelect st.request else none) with
    | some p =>
      setEntryPing
        (addFwd st (some p)
          (if env.neighborType p st.request = .parent then .cdParentHit else .cdSiblingHit))
        .done
    | none =>
      match env.netdbClosestParent st.request with
      | some p => setEntryPing (addFwd st (some p) .closestParent) .done
      | none =>
        match st.entry with
        | some e =>
          if 0 < peerSelectIcpPing env st.request st.direct e then
            let pd := { st.ping with
              startMs := env.nowMs
              nSent := env.udpSent
              nRepliesExpected := env.udpExpected
              timeoutMs := env.udpTimeoutMs }
            let st1 := { st with ping := pd }
            if 0 < st1.ping.nRepliesExpected then
              let st2 := setEntryPing st1 .waiting
              { st2 with timerPending := true }
            else setEntryPing st1 .done
          else setEntryPing st .done
        | none => setEntryPing st .done

/-- peerGetSomeNeighborReplies: finalize the neighbor phase from the
aggregated reply state. The net-db direct check short-circuits to
CLOSEST_DIRECT; else a recorded hit yields PARENT_HIT or SIBLING_HIT; else
closest-parent-miss, else first-parent-miss (whichPeer lookups). -/
def peerGetSomeNeighborReplies (env : Env) (st : PsState) : PsState :=
  if peerCheckNetdbDirect env st then addFwd st none .closestDirect
  else
    match st.hit with
    | some p =>
      addFwd st (some p) (if st.hitKind = .parent then .parentHit else .siblingHit)
    | none =>
      match st.closestParentMiss with
      | some a =>
        match env.whichPeer a with
        | some p => addFwd st (some p) .closestParentMiss
        | none => st
      | none =>
        match st.firstParentMiss with
        | some a =>
          match env.whichPeer a with
          | some p => addFwd st (some p) .firstParentMiss
          | none => st
        | none => st

/-- peerGetSomeDirect: append HIER_DIRECT unless direct is NO or the
protocol is WAIS. -/
def peerGetSomeDirect (st : PsState) : PsState :=
  if st.direct = .no then st
  else if st.request.protocol = .wais then st
  else addFwd st none .hierDirect

/-- peerGetSomeParent: the eight parent strategies in source order, first
non-null wins; nothing when direct is YES. -/
def peerGetSomeParent (env : Env) (st : PsState) : PsState :=
  if st.direct = .yes then st
  else
    match env.getDefaultParent st.request with
    | some p => addFwd st (some p) .defaultParent
    | none =>
      match env.peerUserHashSelectParent st.request with
      | some p => addFwd st (some p) .userhashParent
      | none =>
        match env.peerSourceHashSelectParent st.request with
        | some p => addFwd st (some p) .sourcehashParent
        | none =>
          match env.carpSelectParent st.request with
          | some p => addFwd st (some p) .carp
          | none =>
            match env.getRoundRobinParent st.request with
            | some p => addFwd st (some p) .roundrobinParent
            | none =>
              match env.getWeightedRoundRobinParent st.request with
              | some p => addFwd st (some p) .roundrobinParent
              | none =>
                match env.getFirstUpParent st.request with
                | some p => addFwd st (some p) .firstupParent
                | none =>
                  match env.getAnyParent st.request with
                  | some p => addFwd st (some p) .anyOldParent
                  | none => st

/-- The per-peer body of the peerGetAllParents loop: append alive parents
that may serve this request, tagged ANY_OLD_PARENT. -/
def allParentStep (env : Env) (s : PsState) (p : Peer) : PsState :=
  if env.neighborType p s.request = .parent ∧ env.peerHTTPOkay p s.request = true then
    addFwd s (some p) .anyOldParent
  else s

/-- peerGetAllParents: every usable parent, then the default parent as a
last resort, tagged DEFAULT_PARENT. -/
def peerGetAllParents (env : Env) (st : PsState) : PsState :=
  let st1 := env.peers.foldl (allParentStep env) st
  match env.getDefaultParent st1.request with
  | some p => addFwd st1 (some p) .defaultParent
  | none => st1

/-- Host used for the DNS lookup of a forward-server record: the peer's
host, else the request's host. -/
def fwdHost (fs : FwdServer) (req : Request) : String :=
  match fs.peerRef with
  | some p => p.host
  | none => req.host

/-- Build one destination from a resolved address: remote address, the
peer's http_port or the request port, the record's hier_code, and the
configured outgoing address (getOutgoingAddress). -/
def mkDest (env : Env) (req : Request) (fs : FwdServer) (a : Addr) : Destination :=
  { remote := a
    port := match fs.peerRef with | some p => p.httpPort | none => req.port
    peerType := fs.code
    localAddr := env.outgoingAddr req a }

/-- The TPROXY skip test of peerSelectDnsResults: with spoof_client_ip set
and no per-peer TPROXY opt-out, addresses whose family differs from the
client address family are skipped. -/
def tproxySkip (req : Request) (fs : FwdServer) (a : Addr) : Bool :=
  req.spoofClientIp ∧
    (match fs.peerRef with | some p => p.noTproxy | none => false) = false ∧
    a.v4 ≠ req.clientAddr.v4

/-- The address loop of peerSelectDnsResults. The source walks n from 0 to
ia->count-1 and reads ia->in_addrs[n]; a rotation index ip is maintained
alongside but never used for indexing, so the iteration order here is the
list order of in_addrs. Each iteration first checks the
forward_max_tries cap (the observed length is recorded in the ghost
sizeTrace) and breaks when full. -/
def dnsResultLoop (env : Env) (fs : FwdServer) : List Addr → PsState → PsState
  | [], st => st
  | a :: rest, st =>
    let st1 := { st with sizeTrace := st.sizeTrace ++ [st.paths.length] }
    if env.forwardMaxTries ≤ st1.paths.length then st1
    else if tproxySkip st1.request fs a then dnsResultLoop env fs rest st1
    else
      dnsResultLoop env fs rest
        { st1 with paths := st1.paths ++ [mkDest env st1.request fs a] }

/-- peerSelectDnsResults on one DNS callback: on a non-null result run the
address loop; a null result only logs the unknown host. (The consumption
of the head forward-server record is performed by the walk below.) -/
def peerSelectDnsResultsStep (env : Env) (fs : FwdServer)
    (res : Option IpcacheAddrs) (st : PsState) : PsState :=
  match res with
  | some ia => dnsResultLoop env fs ia.inAddrs st
  | none => st

/-- peerSelectStateFree: delete the ping timer only when the entry is
still PING_WAITING, set ping_status to PING_DONE, release the entry and
the context (ghost freed flag). -/
def peerSelectStateFree (st : PsState) : PsState :=
  match st.entry with
  | some e =>
    { st with
      timerPending := if e.pingStatus = .waiting then false else st.timerPending
      entry := none
      freed := true }
  | none => { st with freed := true }

/-- The completion tail of peerSelectDnsPaths: log success or failure
(both log lines evaluate entry->url(), recorded by the ghost
derefAtComplete flag when no entry is attached: the failure line is a
level-1 statement, the success line level-2), record ping.stop, invoke the
callback exactly when the caller's reference is still valid, and free the
context. -/
def dnsCompleteCore (env : Env) (leftover : List FwdServer) (st : PsState) : PsState :=
  let st1 := { st with servers := leftover }
  let st2 :=
    if st1.paths.length = 0 then
      { st1 with derefAtComplete :=
          st1.derefAtComplete || (st1.entry.isNone && env.dbg1) }
    else
      { st1 with derefAtComplete :=
          st1.derefAtComplete || (st1.entry.isNone && env.dbg2) }
  let st3 := { st2 with ping := { st2.ping with stopMs := env.nowMs } }
  if st3.cbValid then
    { st3 with callbackCount := st3.callbackCount + 1, cbValid := false }
  else st3

def dnsComplete (env : Env) (leftover : List FwdServer) (st : PsState) : PsState :=
  peerSelectStateFree (dnsCompleteCore env leftover st)

/-- peerSelectDnsPaths as a walk over the servers list: while a record
remains and paths is below forward_max_tries (the compared length is
recorded in the ghost sizeTrace), resolve the head record's host (the
level-2 log line evaluates entry->url(), ghost derefAtLookup when no entry
is attached) and consume the record; otherwise complete. -/
def dnsWalk (env : Env) : List FwdServer → PsState → PsState
  | [], st => dnsComplete env [] st
  | fs :: rest, st =>
    let st1 := { st with sizeTrace := st.sizeTrace ++ [st.paths.length] }
    if st1.paths.length < env.forwardMaxTries then
      let st2 := { st1 with derefAtLookup :=
        st1.derefAtLookup || (st1.entry.isNone && env.dbg2) }
      dnsWalk env rest
        (peerSelectDnsResultsStep env fs (env.dns (fwdHost fs st2.request)) st2)
    else dnsComplete env (fs :: rest) st1

/-- Entry to the DNS resolver stage on the current servers list. -/
def peerSelectDnsPathsRun (env : Env) (st : PsState) : PsState :=
  dnsWalk env st.servers st

/-- Outcome of the directness arbiter body (the direct == DIRECT_UNKNOWN
block of peerSelectFoo): suspend on an ACL check, or decide. -/
inductive ArbOut
  | suspendAlways
  | suspendNever
  | go (d : Direct)
deriving DecidableEq

/-- The directness arbiter, evaluated top to bottom exactly as in
peerSelectFoo: pending always_direct ACL, always_direct positive, pending
never_direct ACL, never_direct positive, accelerator no_direct, loop
detection, net-db direct check, else MAYBE. -/
def peerSelectDirectDecision (env : Env) (st : PsState) : ArbOut :=
  if st.alwaysDirect = 0 ∧ env.hasAlwaysDirectAcl = true then .suspendAlways
  else if 0 < st.alwaysDirect then .go .yes
  else if st.neverDirect = 0 ∧ env.hasNeverDirectAcl = true then .suspendNever
  else if 0 < st.neverDirect then .go .no
  else if st.request.noDirect then .go .no
  else if st.request.loopdetect then .go .yes
  else if peerCheckNetdbDirect env st then .go .yes
  else .go .maybe

/-- Why a pass through peerSelectFoo suspended. -/
inductive Suspend
  | aclAlways
  | aclNever
  | pingWait
deriving DecidableEq

/-- The final dispatch of peerSelectFoo on the direct decision: DIRECT_YES
runs the direct appender; DIRECT_NO the parent selector then the
all-parents fallback; otherwise the prefer_direct ordering of direct
appender and parent selector (parent selector gated on hierarchical
requests or disabled nonhierarchical_direct). -/
def peerSelectPost (env : Env) (st : PsState) : PsState :=
  match st.direct with
  | .yes => peerGetSomeDirect st
  | .no => peerGetAllParents env (peerGetSomeParent env st)
  | _ =>
    let st1 := if env.preferDirect then peerGetSomeDirect st else st
    let st2 :=
      if st1.request.hierarchical = true ∨ env.nonhierarchicalDirect = false then
        peerGetSomeParent env st1
      else st1
    if env.preferDirect = false then peerGetSomeDirect st2 else st2

/-- peerSelectFoo up to (and excluding) the DNS resolver stage: run the
arbiter (suspending on an ACL check), the pinned probe when no entry
exists or it is PING_NONE, then the neighbor phase dispatched on
ping_status — PING_NONE runs peerGetSomeNeighbor and suspends if it moved
to PING_WAITING; PING_WAITING runs the reply aggregation and sets
PING_DONE — and finally the direct dispatch. -/
def peerSelectGo (env : Env) (st : PsState) : PsState × Option Suspend :=
  let st1 := if st.entry = none ∨ entryPing st = some .pnone then peerSelectPinned env st else st
  match entryPing st1 with
  | none => (peerSelectPost env st1, none)
  | some ps =>
    if ps = .pnone then
      let st2 := peerGetSomeNeighbor env st1
      if entryPing st2 = some .waiting then (st2, some .pingWait)
      else (peerSelectPost env st2, none)
    else if ps = .waiting then
      let st2 := setEntryPing (peerGetSomeNeighborReplies env st1) .done
      (peerSelectPost env st2, none)
    else (peerSelectPost env st1, none)

def peerSelectPre (env : Env) (st0 : PsState) : PsState × Option Suspend :=
  match (if st0.direct = .unknown then peerSelectDirectDecision env st0 else .go st0.direct) with
  | .suspendAlways => (st0, some .aclAlways)
  | .suspendNever => (st0, some .aclNever)
  | .go d => peerSelectGo env { st0 with direct := d }

/-- peerSelectFoo: the pre-DNS phases followed, when not suspended, by the
DNS resolver stage (which ends in callback and context release). -/
def peerSelectFoo (env : Env) (st : PsState) : PsState × Option Suspend :=
  match peerSelectPre env st with
  | (st1, some s) => (st1, some s)
  | (st1, none) => (peerSelectDnsPathsRun env st1, none)

/-- The state after a (possibly suspending) pass through peerSelectFoo. -/
def fooState (env : Env) (st : PsState) : PsState := (peerSelectFoo env st).1

/-- ICP opcodes distinguished by peerHandleIcpReply. -/
inductive IcpOpcode
  | hitOp
  | missOp
  | dechoOp
  | otherOp
deriving DecidableEq

/-- One ICP reply as seen by the handler: the sending peer, its relation
(neighborType), the opcode, the ICP_FLAG_SRC_RTT flag, the pad word
carrying rtt and hops, and the elapsed milliseconds since ping.start at
processing time (tvSubMsec). -/
structure IcpReply where
  sender : Peer
  kind : PeerKind
  op : IcpOpcode
  srcRtt : Bool
  pad : Nat
  elapsedMs : Int
deriving DecidableEq

/-- The rtt carried in an ICP reply: header->pad masked to 16 bits. -/
def rttOf (r : IcpReply) : Nat := r.pad % 65536

/-- peerIcpParentMiss: with ICMP querying enabled and the SRC_RTT flag, a
positive rtt below the running p_rtt (or with p_rtt unset) records this
peer as closest_parent_miss; then, unless the peer is closest-only or a
closest miss is recorded, the weighted rtt estimate updates
first_parent_miss. (The netdbUpdatePeer call mutates only external
net-db state.) -/
def peerIcpParentMiss (env : Env) (r : IcpReply) (st : PsState) : PsState :=
  let st1 :=
    if env.useIcmp = true ∧ env.queryIcmp = true ∧ r.srcRtt = true then
      if rttOf r ≠ 0 ∧ (st.ping.pRtt = 0 ∨ rttOf r < st.ping.pRtt) then
        { st with
          closestParentMiss := some r.sender.inAddr
          ping := { st.ping with pRtt := rttOf r } }
      else st
    else st
  if r.sender.closestOnly then st1
  else if st1.closestParentMiss ≠ none then st1
  else
    let w0 : Int := (r.elapsedMs - r.sender.basetime).tdiv r.sender.weight
    let w : Int := if w0 < 1 then 1 else w0
    if st1.firstParentMiss = none ∨ w < st1.ping.wRtt then
      { st1 with
        firstParentMiss := some r.sender.inAddr
        ping := { st1.ping with wRtt := w } }
    else st1

/-- peerHandleIcpReply: count the reply; parent MISS/DECHO updates the
parent-miss state; a HIT records the hitting peer and finalizes
immediately via peerSelectFoo; otherwise finalize only once n_recv
reaches n_replies_expected. -/
def peerHandleIcpReply (env : Env) (r : IcpReply) (st : PsState) : PsState :=
  let st1 := { st with ping := { st.ping with nRecv := st.ping.nRecv + 1 } }
  if r.op = .missOp ∨ r.op = .dechoOp then
    let st2 := if r.kind = .parent then peerIcpParentMiss env r st1 else st1
    if st2.ping.nRecv < st2.ping.nRepliesExpected then st2 else fooState env st2
  else if r.op = .hitOp then
    fooState env { st1 with hit := some r.sender, hitKind := r.kind }
  else
    if st1.ping.nRecv < st1.ping.nRepliesExpected then st1 else fooState env st1

/-- Modelled from the spec: the ICP module (neighborsUdpAck, outside this
repository's sources) delivers a reply to the selection's reply callback
only while the entry is still PING_WAITING; replies arriving after
finalization are dropped. Each delivered reply is processed by
peerHandleIcpReply. -/
def deliverReplies (env : Env) (rs : List IcpReply) (st : PsState) : PsState :=
  rs.foldl
    (fun s r => if entryPing s = some .waiting then peerHandleIcpReply env r s else s) st

/-- peerPingTimeout: the fired timer is no longer pending; an invalid
caller reference aborts the selection (PING_DONE, free); otherwise mark
the timeout and re-enter peerSelectFoo. -/
def peerPingTimeout (env : Env) (st : PsState) : PsState :=
  let st1 := { st with timerPending := false }
  if st1.cbValid = false then peerSelectStateFree (setEntryPing st1 .done)
  else fooState env { st1 with ping := { st1.ping with timedout := true } }

/-- The fresh selection context built by peer_select and the ps_state
constructor: tri-states unqueried, direct DIRECT_UNKNOWN, empty servers,
no hit (PEER_NONE), unset miss addresses, zeroed ping data. -/
def initPsState (req : Request) (entry : Option Entry) (paths0 : List Destination)
    (cbValid : Bool) : PsState :=
  { request := req
    entry := entry
    alwaysDirect := 0
    neverDirect := 0
    direct := .unknown
    servers := []
    paths := paths0
    hit := none
    hitKind := .neither
    closestParentMiss := none
    firstParentMiss := none
    ping := { nSent := 0, nRecv := 0, nRepliesExpected := 0, timeoutMs := 0, timedout := false, startMs := 0, stopMs := 0, wRtt := 0, pRtt := 0 }
    cbValid := cbValid
    callbackCount := 0
    timerPending := false
    freed := false
    log := []
    sizeTrace := []
    derefAtLookup := false
    derefAtComplete := false }

/-- peer_select: build the context and enter peerSelectFoo. -/
def peerSelect (env : Env) (paths0 : List Destination) (req : Request)
    (entry : Option Entry) (cbValid : Bool) : PsState × Option Suspend :=
  peerSelectFoo env (initPsState req entry paths0 cbValid)

/-! ## Claim-side definitions (stated from the specification's words) -/

/-- The arbiter outcome as claim C5 words it: the first matching rule of
the fixed order always_direct positive gives YES, never_direct positive
gives NO, no_direct gives NO, loopdetect gives YES, the net-db direct
check gives YES, otherwise MAYBE. -/
def directClaim (env : Env) (st : PsState) : Direct :=
  if 0 < st.alwaysDirect then .yes
  else if 0 < st.neverDirect then .no
  else if st.request.noDirect then .no
  else if st.request.loopdetect then .yes
  else if peerCheckNetdbDirect env st then .yes
  else .maybe

/-- The parent strategy priority table as claim C7 words it: the first
strategy returning a peer determines the record and its tag. -/
def parentStrategyChoice (env : Env) (req : Request) : Option (Peer × HierCode) :=
  match env.getDefaultParent req with
  | some p => some (p, .defaultParent)
  | none =>
    match env.peerUserHashSelectParent req with
    | some p => some (p, .userhashParent)
    | none =>
      match env.peerSourceHashSelectParent req with
      | some p => some (p, .sourcehashParent)
      | none =>
        match env.carpSelectParent req with
        | some p => some (p, .carp)
        | none =>
          match env.getRoundRobinParent req with
          | some p => some (p, .roundrobinParent)
          | none =>
            match env.getWeightedRoundRobinParent req with
            | some p => some (p, .roundrobinParent)
            | none =>
              match env.getFirstUpParent req with
              | some p => some (p, .firstupParent)
              | none =>
                match env.getAnyParent req with
                | some p => some (p, .anyOldParent)
                | none => none

/-- The rotated address order claimed by C2 and the spec: start at index
cur and wrap around to index 0 after index count-1. -/
def rotatedAddrs (ia : IpcacheAddrs) : List Addr :=
  ia.inAddrs.drop ia.cur ++ ia.inAddrs.take ia.cur

/-- The (closest_parent_miss, p_rtt) pair of a context. -/
def closestOf (st : PsState) : Option Addr × Nat := (st.closestParentMiss, st.ping.pRtt)

/-- The closest-parent-miss update applied by one parent-miss reply,
extracted from peerIcpParentMiss: a positive rtt strictly below the
running minimum (or with the minimum unset) replaces it. -/
def closestStep (c : Option Addr × Nat) (r : IcpReply) : Option Addr × Nat :=
  if rttOf r ≠ 0 ∧ (c.2 = 0 ∨ rttOf r < c.2) then (some r.sender.inAddr, rttOf r) else c

/-! ## Concrete fixtures used by witnesses and counterexamples -/

/-- A strategy that never yields a peer. -/
def noPeerFn : Request → Option Peer := fun _ => none

/-- A minimal environment: no ACL lists, no ICMP net-db, no digests, no
peers, every strategy empty, DNS resolving nothing, fan-out cap 10. -/
def baseEnv : Env :=
  { forwardMaxTries := 10
    preferDirect := false
    nonhierarchicalDirect := true
    useIcmp := false
    queryIcmp := false
    minDirectRtt := 0
    minDirectHops := 0
    neighborsDoPrivateKeys := true
    hasAlwaysDirectAcl := false
    hasNeverDirectAcl := false
    useCacheDigests := false
    peers := []
    dbg1 := false
    dbg2 := false
    nowMs := 0
    netdbHostRtt := fun _ => 0
    netdbHostHops := fun _ => 0
    whichPeer := fun _ => none
    neighborsCount := fun _ => 0
    neighborType := fun _ _ => .neither
    peerHTTPOkay := fun _ _ => false
    peerAllowedToUse := fun _ _ => false
    neighborsDigestSelect := noPeerFn
    netdbClosestParent := noPeerFn
    getDefaultParent := noPeerFn
    peerUserHashSelectParent := noPeerFn
    peerSourceHashSelectParent := noPeerFn
    carpSelectParent := noPeerFn
    getRoundRobinParent := noPeerFn
    getWeightedRoundRobinParent := noPeerFn
    getFirstUpParent := noPeerFn
    getAnyParent := noPeerFn
    udpExpected := 0
    udpSent := 0
    udpTimeoutMs := 0
    dns := fun _ => none
    outgoingAddr := fun _ _ => none }

/-- A plain non-hierarchical HTTP request for origin.example, no pinning,
no spoofing. -/
def baseReq : Request :=
  { host := "origin.example"
    port := 80
    protocol := .http
    hierarchical := false
    noDirect := false
    loopdetect := false
    spoofClientIp := false
    clientAddr := ⟨0, true⟩
    pinned := none }

/-- A configured parent peer. -/
def peerA : Peer := ⟨"parent-a.example", 3128, ⟨10, true⟩, false, false, 0, 1⟩

/-- A second configured parent peer. -/
def peerB : Peer := ⟨"parent-b.example", 3128, ⟨11, true⟩, false, false, 0, 1⟩

/-- A cache entry waiting on ICP replies. -/
def waitingEntry : Entry := ⟨"http://origin.example/", false, .waiting⟩

/-- Ping data with n pings outstanding and none received. -/
def pingWith (n : Nat) : PingData :=
  { nSent := n, nRecv := 0, nRepliesExpected := n, timeoutMs := 1000, timedout := false, startMs := 0, stopMs := 0, wRtt := 0, pRtt := 0 }

/-- A context suspended in the ICP wait: entry PING_WAITING, direct
already decided MAYBE, n replies expected. -/
def waitSt (n : Nat) : PsState :=
  { (initPsState baseReq (some waitingEntry) [] true) with
    direct := .maybe
    ping := pingWith n }

/-- An ICP_HIT reply from a parent peer. -/
def hitReplyA : IcpReply := ⟨peerA, .parent, .hitOp, false, 0, 0⟩

/-- A parent ICP_MISS reply carrying rtt in the pad word. -/
def missReply (p : Peer) (rtt : Nat) : IcpReply := ⟨p, .parent, .missOp, true, rtt, 0⟩

/-- Fan-out cap 2 with a three-address DNS answer, for the C1 witness. -/
def envC1 : Env :=
  { baseEnv with
    forwardMaxTries := 2
    dns := fun _ => some ⟨0, [⟨1, true⟩, ⟨2, true⟩, ⟨3, true⟩]⟩ }

/-- A context entering the DNS stage with one direct record queued. -/
def stC1 : PsState := { (initPsState baseReq none [] true) with servers := [⟨none, .hierDirect⟩] }

/-- The C2 failing input: a two-address DNS result with cursor 1. -/
def iaC2 : IpcacheAddrs := ⟨1, [⟨0, true⟩, ⟨1, true⟩]⟩

/-- The direct forward-server record being resolved in C2. -/
def fsC2 : FwdServer := ⟨none, .hierDirect⟩

/-- A fresh context for the C2 evaluation. -/
def stC2 : PsState := initPsState baseReq none [] true

/-- An environment where the net-db direct check succeeds (origin RTT 5 ms,
minimum_direct_rtt 10 ms), for the C3 counterexample. -/
def envC3x : Env :=
  { baseEnv with
    useIcmp := true
    minDirectRtt := 10
    netdbHostRtt := fun _ => 5 }

/-- ICMP querying enabled, for C4. -/
def envC4 : Env := { baseEnv with useIcmp := true, queryIcmp := true }

/-- A fresh context (direct still unknown), for C5. -/
def stC5 : PsState := initPsState baseReq none [] true

/-- The same context with direct already decided MAYBE. -/
def stC5b : PsState := { stC5 with direct := .maybe }

/-- One neighbor configured and private-key exchange disallowed, for the
C6 counterexample. -/
def envC6 : Env :=
  { baseEnv with
    neighborsCount := fun _ => 1
    neighborsDoPrivateKeys := false }

/-- A privately-keyed entry with ping_status PING_NONE. -/
def eC6 : Entry := ⟨"http://origin.example/", true, .pnone⟩

/-- One neighbor configured, private keys allowed, for the C6 witness. -/
def envC6w : Env := { baseEnv with neighborsCount := fun _ => 1 }

/-- A hierarchical request, for the C6 witness. -/
def reqC6w : Request := { baseReq with hierarchical := true }

/-- A non-private entry with ping_status PING_NONE. -/
def eC6w : Entry := ⟨"http://origin.example/", false, .pnone⟩

/-- A default parent configured, for the C7 witness. -/
def envC7 : Env := { baseEnv with getDefaultParent := fun _ => some peerA }

/-- Section 44 logging enabled at levels 1 and 2, for C9. -/
def envC9 : Env := { baseEnv with dbg1 := true, dbg2 := true }

/-- A default parent plus one alive parent peer, for the C10 witness. -/
def envC10 : Env :=
  { baseEnv with
    getDefaultParent := fun _ => some peerA
    peers := [peerB]
    neighborType := fun _ _ => .parent
    peerHTTPOkay := fun _ _ => true }

/-- A context on the DIRECT_NO path, for the C10 witness. -/
def stC10 : PsState := { stC5 with direct := .no }

/-- A MISS-only reply sequence with rtts 50, 30, 30 — the minimum 30 is
reached first by peerB, and peerA later ties it — for the C4 witness. -/
def rsC4 : List IcpReply := [missReply peerA 50, missReply peerB 30, missReply peerA 30]

/-- One MISS reply preceding the HIT, for the C3 witness. -/
def rsC3pre : List IcpReply := [missReply peerB 30]

/-- One MISS reply arriving after the HIT, for the C3 witness. -/
def qsC3 : List IcpReply := [missReply peerA 40]

/-- A waiting context with the ping-timeout event pending, for the C8
counterexample. -/
def stC8 : PsState := { waitSt 1 with timerPending := true }

/-- A waiting context with the timeout event pending and a HIT already
recorded, for the C8 witness. -/
def stC8h : PsState :=
  { waitSt 1 with timerPending := true, hit := some peerA, hitKind := .parent }

/-! ## Shape lemmas: each phase only rewrites a known set of fields -/

theorem setEntryPing_eq (st : PsState) (s : PingStatus) :
    setEntryPing st s = { st with entry := st.entry.map fun e => { e with pingStatus := s } } := by
  cases h : st.entry with
  | none =>
    simp only [setEntryPing, h, Option.map_none']
    rw [← h]
  | some e => simp [setEntryPing, h]

theorem parentMiss_shape (env : Env) (r : IcpReply) (st : PsState) :
    peerIcpParentMiss env r st =
      { st with
        closestParentMiss := (peerIcpParentMiss env r st).closestParentMiss
        firstParentMiss := (peerIcpParentMiss env r st).firstParentMiss
        ping := { st.ping with
          pRtt := (peerIcpParentMiss env r st).ping.pRtt
          wRtt := (peerIcpParentMiss env r st).ping.wRtt } } := by
  unfold peerIcpParentMiss
  dsimp only
  split_ifs <;> rfl

theorem pinned_shape (env : Env) (st : PsState) :
    peerSelectPinned env st =
      { st with
        servers := (peerSelectPinned env st).servers
        log := (peerSelectPinned env st).log
        entry := (peerSelectPinned env st).entry } := by
  unfold peerSelectPinned setEntryPing addFwd
  try dsimp only
  repeat' split <;> try rfl

theorem neighbor_shape (env : Env) (st : PsState) :
    peerGetSomeNeighbor env st =
      { st with
        servers := (peerGetSomeNeighbor env st).servers
        log := (peerGetSomeNeighbor env st).log
        entry := (peerGetSomeNeighbor env st).entry
        ping := (peerGetSomeNeighbor env st).ping
        timerPending := (peerGetSomeNeighbor env st).timerPending } := by
  unfold peerGetSomeNeighbor setEntryPing addFwd
  try dsimp only
  repeat' split <;> try rfl

theorem replies_shape (env : Env) (st : PsState) :
    peerGetSomeNeighborReplies env st =
      { st with
        servers := (peerGetSomeNeighborReplies env st).servers
        log := (peerGetSomeNeighborReplies env st).log } := by
  unfold peerGetSomeNeighborReplies addFwd
  try dsimp only
  repeat' split <;> try rfl

theorem someDirect_shape (st : PsState) :
    peerGetSomeDirect st =
      { st with
        servers := (peerGetSomeDirect st).servers
        log := (peerGetSomeDirect st).log } := by
  unfold peerGetSomeDirect addFwd
  try dsimp only
  repeat' split <;> try rfl

theorem someParent_shape (env : Env) (st : PsState) :
    peerGetSomeParent env st =
      { st with
        servers := (peerGetSomeParent env st).servers
        log := (peerGetSomeParent env st).log } := by
  unfold peerGetSomeParent addFwd
  try dsimp only
  repeat' split <;> try rfl

theorem allParentStep_shape (env : Env) (s : PsState) (p : Peer) :
    allParentStep env s p =
      { s with
        servers := (allParentStep env s p).servers
        log := (allParentStep env s p).log } := by
  unfold allParentStep addFwd
  try dsimp only
  repeat' split <;> try rfl

/-- b differs from a at most in the servers and log fields. -/
def SLonly (a b : PsState) : Prop :=
  b = { a with servers := b.servers, log := b.log }

theorem SLonly_refl (a : PsState) : SLonly a a := rfl

theorem SLonly_trans {a b c : PsState} (h1 : SLonly a b) (h2 : SLonly b c) :
    SLonly a c := by
  unfold SLonly at *
  refine h2.trans ?_
  rw [h1]

theorem SLonly_fields {a b : PsState} (h : SLonly a b) :
    b.request = a.request ∧ b.entry = a.entry ∧ b.direct = a.direct ∧
    b.hit = a.hit ∧ b.hitKind = a.hitKind ∧
    b.closestParentMiss = a.closestParentMiss ∧ b.firstParentMiss = a.firstParentMiss ∧
    b.ping = a.ping ∧ b.paths = a.paths ∧ b.callbackCount = a.callbackCount ∧
    b.cbValid = a.cbValid ∧ b.timerPending = a.timerPending ∧ b.freed = a.freed ∧
    b.alwaysDirect = a.alwaysDirect ∧ b.neverDirect = a.neverDirect ∧
    b.sizeTrace = a.sizeTrace ∧ b.derefAtLookup = a.derefAtLookup ∧
    b.derefAtComplete = a.derefAtComplete := by
  unfold SLonly at h
  refine ⟨?_, ?_, ?_, ?_, ?_, ?_, ?_, ?_, ?_, ?_, ?_, ?_, ?_, ?_, ?_, ?_, ?_, ?_⟩ <;> rw [h]

theorem addFwd_SL (st : PsState) (p : Option Peer) (c : HierCode) :
    SLonly st (addFwd st p c) := rfl

theorem replies_SL (env : Env) (st : PsState) :
    SLonly st (peerGetSomeNeighborReplies env st) := replies_shape env st

theorem someDirect_SL (st : PsState) : SLonly st (peerGetSomeDirect st) :=
  someDirect_shape st

theorem someParent_SL (env : Env) (st : PsState) :
    SLonly st (peerGetSomeParent env st) := someParent_shape env st

theorem allParentStep_SL (env : Env) (s : PsState) (p : Peer) :
    SLonly s (allParentStep env s p) := allParentStep_shape env s p

theorem foldl_aps_SL (env : Env) :
    ∀ (ps : List Peer) (st : PsState), SLonly st (ps.foldl (allParentStep env) st) := by
  intro ps
  induction ps with
  | nil => intro st; exact SLonly_refl st
  | cons p ps ih =>
    intro st
    exact SLonly_trans (allParentStep_SL env st p) (ih (allParentStep env st p))

theorem allParents_SL (env : Env) (st : PsState) :
    SLonly st (peerGetAllParents env st) := by
  unfold peerGetAllParents
  dsimp only
  split
  · exact SLonly_trans (foldl_aps_SL env env.peers st)
      (addFwd_SL (env.peers.foldl (allParentStep env) st) _ _)
  · exact foldl_aps_SL env env.peers st

theorem post_SL (env : Env) (st : PsState) : SLonly st (peerSelectPost env st) := by
  unfold peerSelectPost
  split
  · exact someDirect_SL st
  · exact SLonly_trans (someParent_SL env st) (allParents_SL env (peerGetSomeParent env st))
  all_goals {
    dsimp only
    split <;> split <;> split <;>
      first
        | exact SLonly_trans (someDirect_SL st)
            (SLonly_trans (someParent_SL env (peerGetSomeDirect st))
              (someDirect_SL (peerGetSomeParent env (peerGetSomeDirect st))))
        | exact SLonly_trans (someDirect_SL st) (someParent_SL env (peerGetSomeDirect st))
        | exact SLonly_trans (someDirect_SL st) (someDirect_SL (peerGetSomeDirect st))
        | exact SLonly_trans (someParent_SL env st) (someDirect_SL (peerGetSomeParent env st))
        | exact someDirect_SL st
        | exact someParent_SL env st
        | exact SLonly_refl st
  }

/-- b differs from a at most in the paths and sizeTrace fields. -/
def PTonly (a b : PsState) : Prop :=
  b = { a with paths := b.paths, sizeTrace := b.sizeTrace }

theorem PTonly_fields {a b : PsState} (h : PTonly a b) :
    b.request = a.request ∧ b.entry = a.entry ∧ b.direct = a.direct ∧
    b.hit = a.hit ∧ b.hitKind = a.hitKind ∧
    b.closestParentMiss = a.closestParentMiss ∧ b.firstParentMiss = a.firstParentMiss ∧
    b.ping = a.ping ∧ b.servers = a.servers ∧ b.log = a.log ∧
    b.callbackCount = a.callbackCount ∧ b.cbValid = a.cbValid ∧
    b.timerPending = a.timerPending ∧ b.freed = a.freed ∧
    b.alwaysDirect = a.alwaysDirect ∧ b.neverDirect = a.neverDirect ∧
    b.derefAtLookup = a.derefAtLookup ∧ b.derefAtComplete = a.derefAtComplete := by
  unfold PTonly at h
  refine ⟨?_, ?_, ?_, ?_, ?_, ?_, ?_, ?_, ?_, ?_, ?_, ?_, ?_, ?_, ?_, ?_, ?_, ?_⟩ <;> rw [h]

theorem resultLoop_PT (env : Env) (fs : FwdServer) :
    ∀ (addrs : List Addr) (st : PsState), PTonly st (dnsResultLoop env fs addrs st) := by
  intro addrs
  induction addrs with
  | nil => intro st; rfl
  | cons a rest ih =>
    intro st
    unfold PTonly at *
    show dnsResultLoop env fs (a :: rest) st = _
    simp only [dnsResultLoop]
    split_ifs with h1 h2
    · rfl
    · rw [ih { st with sizeTrace := st.sizeTrace ++ [st.paths.length] }]
    · rw [ih { st with
        sizeTrace := st.sizeTrace ++ [st.paths.length]
        paths := st.paths ++ [mkDest env st.request fs a] }]

theorem dnsStep_PT (env : Env) (fs : FwdServer) (res : Option IpcacheAddrs)
    (st : PsState) : PTonly st (peerSelectDnsResultsStep env fs res st) := by
  unfold peerSelectDnsResultsStep
  cases res with
  | none => rfl
  | some ia => exact resultLoop_PT env fs ia.inAddrs st

/-- The selection-outcome fields preserved by the whole DNS stage. -/
def KeepCore (a b : PsState) : Prop :=
  b.request = a.request ∧ b.direct = a.direct ∧ b.hit = a.hit ∧
  b.hitKind = a.hitKind ∧ b.closestParentMiss = a.closestParentMiss ∧
  b.firstParentMiss = a.firstParentMiss ∧ b.log = a.log ∧
  b.alwaysDirect = a.alwaysDirect ∧ b.neverDirect = a.neverDirect ∧
  b.ping.pRtt = a.ping.pRtt

theorem KeepCore_refl (a : PsState) : KeepCore a a :=
  ⟨rfl, rfl, rfl, rfl, rfl, rfl, rfl, rfl, rfl, rfl⟩

theorem KeepCore_trans {a b c : PsState} (h1 : KeepCore a b) (h2 : KeepCore b c) :
    KeepCore a c := by
  obtain ⟨q1, q2, q3, q4, q5, q6, q7, q8, q9, q10⟩ := h1
  obtain ⟨r1, r2, r3, r4, r5, r6, r7, r8, r9, r10⟩ := h2
  exact ⟨r1.trans q1, r2.trans q2, r3.trans q3, r4.trans q4, r5.trans q5,
    r6.trans q6, r7.trans q7, r8.trans q8, r9.trans q9, r10.trans q10⟩

theorem PTonly_keep {a b : PsState} (h : PTonly a b) : KeepCore a b := by
  obtain ⟨q1, q2, q3, q4, q5, q6, q7, q8, _, q10, _, _, _, _, q15, q16, _, _⟩ :=
    PTonly_fields h
  exact ⟨q1, q3, q4, q5, q6, q7, q10, q15, q16, by rw [q8]⟩

theorem free_keep (st : PsState) : KeepCore st (peerSelectStateFree st) := by
  unfold peerSelectStateFree
  refine ⟨?_, ?_, ?_, ?_, ?_, ?_, ?_, ?_, ?_, ?_⟩ <;> (repeat' split <;> try rfl)

theorem free_freed (st : PsState) : (peerSelectStateFree st).freed = true := by
  unfold peerSelectStateFree
  repeat' split <;> try rfl

theorem free_entry (st : PsState) : (peerSelectStateFree st).entry = none := by
  unfold peerSelectStateFree
  repeat' split <;> simp_all

theorem free_timer (st : PsState) :
    (peerSelectStateFree st).timerPending =
      if entryPing st = some .waiting then false else st.timerPending := by
  unfold peerSelectStateFree entryPing
  cases h : st.entry with
  | none => simp
  | some e =>
    by_cases hw : e.pingStatus = PingStatus.waiting <;> simp [hw]

theorem completeCore_shape (env : Env) (leftover : List FwdServer) (st : PsState) :
    dnsCompleteCore env leftover st =
      { st with
        servers := leftover
        derefAtComplete := (dnsCompleteCore env leftover st).derefAtComplete
        ping := { st.ping with stopMs := env.nowMs }
        callbackCount := (dnsCompleteCore env leftover st).callbackCount
        cbValid := (dnsCompleteCore env leftover st).cbValid } := by
  unfold dnsCompleteCore
  dsimp only
  split_ifs <;> rfl

theorem completeCore_cb (env : Env) (leftover : List FwdServer) (st : PsState) :
    (dnsCompleteCore env leftover st).callbackCount =
      st.callbackCount + (if st.cbValid then 1 else 0) := by
  unfold dnsCompleteCore
  dsimp only
  split_ifs with h1 h2 <;> simp_all

theorem complete_keep (env : Env) (leftover : List FwdServer) (st : PsState) :
    KeepCore st (dnsComplete env leftover st) := by
  unfold dnsComplete
  refine KeepCore_trans (b := dnsCompleteCore env leftover st) ?_
    (free_keep (dnsCompleteCore env leftover st))
  rw [completeCore_shape]
  exact ⟨rfl, rfl, rfl, rfl, rfl, rfl, rfl, rfl, rfl, rfl⟩

theorem complete_freed (env : Env) (leftover : List FwdServer) (st : PsState) :
    (dnsComplete env leftover st).freed = true :=
  free_freed (dnsCompleteCore env leftover st)

theorem complete_entry (env : Env) (leftover : List FwdServer) (st : PsState) :
    (dnsComplete env leftover st).entry = none :=
  free_entry (dnsCompleteCore env leftover st)

theorem free_paths (st : PsState) : (peerSelectStateFree st).paths = st.paths := by
  unfold peerSelectStateFree
  repeat' split <;> try rfl

theorem free_trace (st : PsState) : (peerSelectStateFree st).sizeTrace = st.sizeTrace := by
  unfold peerSelectStateFree
  repeat' split <;> try rfl

theorem free_cb (st : PsState) : (peerSelectStateFree st).callbackCount = st.callbackCount := by
  unfold peerSelectStateFree
  repeat' split <;> try rfl

theorem complete_paths (env : Env) (leftover : List FwdServer) (st : PsState) :
    (dnsComplete env leftover st).paths = st.paths := by
  unfold dnsComplete
  rw [free_paths, completeCore_shape]

theorem complete_trace (env : Env) (leftover : List FwdServer) (st : PsState) :
    (dnsComplete env leftover st).sizeTrace = st.sizeTrace := by
  unfold dnsComplete
  rw [free_trace, completeCore_shape]

theorem complete_cb (env : Env) (leftover : List FwdServer) (st : PsState) :
    (dnsComplete env leftover st).callbackCount =
      st.callbackCount + (if st.cbValid then 1 else 0) := by
  unfold dnsComplete
  rw [free_cb, completeCore_cb]

theorem completeCore_entry (env : Env) (leftover : List FwdServer) (st : PsState) :
    (dnsCompleteCore env leftover st).entry = st.entry := by
  rw [completeCore_shape]

theorem completeCore_timer (env : Env) (leftover : List FwdServer) (st : PsState) :
    (dnsCompleteCore env leftover st).timerPending = st.timerPending := by
  rw [completeCore_shape]

theorem complete_timer (env : Env) (leftover : List FwdServer) (st : PsState)
    (h : entryPing st ≠ some .waiting) :
    (dnsComplete env leftover st).timerPending = st.timerPending := by
  unfold dnsComplete
  rw [free_timer]
  have he : entryPing (dnsCompleteCore env leftover st) = entryPing st := by
    unfold entryPing
    rw [completeCore_entry]
  rw [he, if_neg h, completeCore_timer]

theorem walk_keep (env : Env) :
    ∀ (l : List FwdServer) (st : PsState), KeepCore st (dnsWalk env l st) := by
  intro l
  induction l with
  | nil => intro st; exact complete_keep env [] st
  | cons fs rest ih =>
    intro st
    simp only [dnsWalk]
    split_ifs with h
    · refine KeepCore_trans ?_ (ih _)
      refine KeepCore_trans ?_ (PTonly_keep (dnsStep_PT env fs _ _))
      exact ⟨rfl, rfl, rfl, rfl, rfl, rfl, rfl, rfl, rfl, rfl⟩
    · refine KeepCore_trans ?_ (complete_keep env (fs :: rest) _)
      exact ⟨rfl, rfl, rfl, rfl, rfl, rfl, rfl, rfl, rfl, rfl⟩

theorem walk_freed (env : Env) :
    ∀ (l : List FwdServer) (st : PsState), (dnsWalk env l st).freed = true := by
  intro l
  induction l with
  | nil => intro st; exact complete_freed env [] st
  | cons fs rest ih =>
    intro st
    simp only [dnsWalk]
    split_ifs with h
    · exact ih _
    · exact complete_freed env (fs :: rest) _

theorem walk_entry (env : Env) :
    ∀ (l : List FwdServer) (st : PsState), (dnsWalk env l st).entry = none := by
  intro l
  induction l with
  | nil => intro st; exact complete_entry env [] st
  | cons fs rest ih =>
    intro st
    simp only [dnsWalk]
    split_ifs with h
    · exact ih _
    · exact complete_entry env (fs :: rest) _

theorem walk_timer (env : Env) :
    ∀ (l : List FwdServer) (st : PsState), entryPing st ≠ some .waiting →
      (dnsWalk env l st).timerPending = st.timerPending := by
  intro l
  induction l with
  | nil => intro st h; exact complete_timer env [] st h
  | cons fs rest ih =>
    intro st h
    simp only [dnsWalk]
    split_ifs with hlen
    · obtain ⟨_, hent, _, _, _, _, _, _, _, _, _, _, htm, _⟩ :=
        PTonly_fields (dnsStep_PT env fs
          (env.dns (fwdHost fs st.request))
          { st with
            sizeTrace := st.sizeTrace ++ [st.paths.length]
            derefAtLookup := st.derefAtLookup || (st.entry.isNone && env.dbg2) })
      rw [ih _ ?_]
      · rw [htm]
      · unfold entryPing at *
        rw [hent]
        exact h
    · exact complete_timer env (fs :: rest) _ h

theorem resultLoop_main (env : Env) (fs : FwdServer) :
    ∀ (addrs : List Addr) (st : PsState),
      st.paths.length ≤ env.forwardMaxTries →
      (dnsResultLoop env fs addrs st).paths.length ≤ env.forwardMaxTries ∧
      ∃ tr, (dnsResultLoop env fs addrs st).sizeTrace = st.sizeTrace ++ tr ∧
        ∀ n ∈ tr, n ≤ env.forwardMaxTries := by
  intro addrs
  induction addrs with
  | nil =>
    intro st h
    refine ⟨h, [], ?_, by simp⟩
    simp [dnsResultLoop]
  | cons a rest ih =>
    intro st h
    simp only [dnsResultLoop]
    split_ifs with h1 h2
    · refine ⟨h, [st.paths.length], by simp, ?_⟩
      intro n hn
      simp at hn
      subst hn
      exact h
    · obtain ⟨hl, tr, htr, hb⟩ :=
        ih { st with sizeTrace := st.sizeTrace ++ [st.paths.length] } h
      refine ⟨hl, st.paths.length :: tr, ?_, ?_⟩
      · rw [htr]
        simp
      · intro n hn
        rcases List.mem_cons.1 hn with hn | hn
        · subst hn; exact h
        · exact hb n hn
    · have hlt : st.paths.length < env.forwardMaxTries := Nat.lt_of_not_le h1
      obtain ⟨hl, tr, htr, hb⟩ :=
        ih { st with
          sizeTrace := st.sizeTrace ++ [st.paths.length]
          paths := st.paths ++ [mkDest env st.request fs a] } (by
            simpa using Nat.succ_le_of_lt hlt)
      refine ⟨hl, st.paths.length :: tr, ?_, ?_⟩
      · rw [htr]
        simp
      · intro n hn
        rcases List.mem_cons.1 hn with hn | hn
        · subst hn; exact h
        · exact hb n hn

theorem dnsStep_main (env : Env) (fs : FwdServer) (res : Option IpcacheAddrs)
    (st : PsState) (h : st.paths.length ≤ env.forwardMaxTries) :
    (peerSelectDnsResultsStep env fs res st).paths.length ≤ env.forwardMaxTries ∧
    ∃ tr, (peerSelectDnsResultsStep env fs res st).sizeTrace = st.sizeTrace ++ tr ∧
      ∀ n ∈ tr, n ≤ env.forwardMaxTries := by
  unfold peerSelectDnsResultsStep
  cases res with
  | none => exact ⟨h, [], by simp, by simp⟩
  | some ia => exact resultLoop_main env fs ia.inAddrs st h

theorem walk_main (env : Env) :
    ∀ (l : List FwdServer) (st : PsState),
      st.paths.length ≤ env.forwardMaxTries →
      (dnsWalk env l st).callbackCount =
        st.callbackCount + (if st.cbValid then 1 else 0) ∧
      (dnsWalk env l st).paths.length ≤ env.forwardMaxTries ∧
      ∃ tr, (dnsWalk env l st).sizeTrace = st.sizeTrace ++ tr ∧
        ∀ n ∈ tr, n ≤ env.forwardMaxTries := by
  intro l
  induction l with
  | nil =>
    intro st h
    simp only [dnsWalk]
    refine ⟨complete_cb env [] st, ?_, [], ?_, by simp⟩
    · rw [complete_paths]
      exact h
    · rw [complete_trace]
      simp
  | cons fs rest ih =>
    intro st h
    simp only [dnsWalk]
    by_cases hlen : st.paths.length < env.forwardMaxTries
    · rw [if_pos hlen]
      obtain ⟨hstep_len, tr1, htr1, hb1⟩ :=
        dnsStep_main env fs (env.dns (fwdHost fs st.request))
          { st with
            sizeTrace := st.sizeTrace ++ [st.paths.length]
            derefAtLookup := st.derefAtLookup || (st.entry.isNone && env.dbg2) } h
      obtain ⟨_, _, _, _, _, _, _, _, _, _, hcnt, hcbv, _⟩ :=
        PTonly_fields (dnsStep_PT env fs (env.dns (fwdHost fs st.request))
          { st with
            sizeTrace := st.sizeTrace ++ [st.paths.length]
            derefAtLookup := st.derefAtLookup || (st.entry.isNone && env.dbg2) })
      obtain ⟨hcb2, hlen2, tr2, htr2, hb2⟩ := ih _ hstep_len
      refine ⟨?_, hlen2, st.paths.length :: (tr1 ++ tr2), ?_, ?_⟩
      · rw [hcb2, hcnt, hcbv]
      · rw [htr2, htr1]
        simp
      · intro n hn
        rcases List.mem_cons.1 hn with hn | hn
        · subst hn
          exact le_of_lt hlen
        · rcases List.mem_append.1 hn with hn | hn
          · exact hb1 n hn
          · exact hb2 n hn
    · rw [if_neg hlen]
      refine ⟨?_, ?_, [st.paths.length], ?_, ?_⟩
      · rw [complete_cb]
      · rw [complete_paths]
        exact h
      · rw [complete_trace]
      · intro n hn
        simp at hn
        subst hn
        exact h

theorem pinned_pc (env : Env) (st : PsState) :
    (peerSelectPinned env st).paths = st.paths ∧
    (peerSelectPinned env st).callbackCount = st.callbackCount := by
  rw [pinned_shape]
  exact ⟨rfl, rfl⟩

theorem neighbor_pc (env : Env) (st : PsState) :
    (peerGetSomeNeighbor env st).paths = st.paths ∧
    (peerGetSomeNeighbor env st).callbackCount = st.callbackCount := by
  rw [neighbor_shape]
  exact ⟨rfl, rfl⟩

theorem setPing_pc (st : PsState) (s : PingStatus) :
    (setEntryPing st s).paths = st.paths ∧
    (setEntryPing st s).callbackCount = st.callbackCount := by
  rw [setEntryPing_eq]
  exact ⟨rfl, rfl⟩

theorem replies_pc (env : Env) (st : PsState) :
    (peerGetSomeNeighborReplies env st).paths = st.paths ∧
    (peerGetSomeNeighborReplies env st).callbackCount = st.callbackCount := by
  rw [replies_shape]
  exact ⟨rfl, rfl⟩

theorem post_pc (env : Env) (st : PsState) :
    (peerSelectPost env st).paths = st.paths ∧
    (peerSelectPost env st).callbackCount = st.callbackCount := by
  obtain ⟨_, _, _, _, _, _, _, _, h9, h10, _⟩ := SLonly_fields (post_SL env st)
  exact ⟨h9, h10⟩

theorem go_pc (env : Env) (st : PsState) :
    (peerSelectGo env st).1.paths = st.paths ∧
    (peerSelectGo env st).1.callbackCount = st.callbackCount := by
  unfold peerSelectGo
  by_cases hc : st.entry = none ∨ entryPing st = some .pnone
  · rw [if_pos hc]
    cases hep : entryPing (peerSelectPinned env st) with
    | none =>
      simp only [hep]
      exact ⟨(post_pc env _).1.trans (pinned_pc env st).1,
        (post_pc env _).2.trans (pinned_pc env st).2⟩
    | some ps =>
      simp only [hep]
      by_cases hp : ps = PingStatus.pnone
      · rw [if_pos hp]
        by_cases hw : entryPing (peerGetSomeNeighbor env (peerSelectPinned env st)) =
            some PingStatus.waiting
        · rw [if_pos hw]
          exact ⟨(neighbor_pc env _).1.trans (pinned_pc env st).1,
            (neighbor_pc env _).2.trans (pinned_pc env st).2⟩
        · rw [if_neg hw]
          exact ⟨((post_pc env _).1.trans (neighbor_pc env _).1).trans (pinned_pc env st).1,
            ((post_pc env _).2.trans (neighbor_pc env _).2).trans (pinned_pc env st).2⟩
      · rw [if_neg hp]
        by_cases hw : ps = PingStatus.waiting
        · rw [if_pos hw]
          exact ⟨(((post_pc env _).1.trans (setPing_pc _ _).1).trans
              (replies_pc env _).1).trans (pinned_pc env st).1,
            (((post_pc env _).2.trans (setPing_pc _ _).2).trans
              (replies_pc env _).2).trans (pinned_pc env st).2⟩
        · rw [if_neg hw]
          exact ⟨(post_pc env _).1.trans (pinned_pc env st).1,
            (post_pc env _).2.trans (pinned_pc env st).2⟩
  · rw [if_neg hc]
    cases hep : entryPing st with
    | none =>
      simp only [hep]
      exact ⟨(post_pc env _).1, (post_pc env _).2⟩
    | some ps =>
      simp only [hep]
      by_cases hp : ps = PingStatus.pnone
      · rw [if_pos hp]
        by_cases hw : entryPing (peerGetSomeNeighbor env st) = some PingStatus.waiting
        · rw [if_pos hw]
          exact ⟨(neighbor_pc env st).1, (neighbor_pc env st).2⟩
        · rw [if_neg hw]
          exact ⟨(post_pc env _).1.trans (neighbor_pc env st).1,
            (post_pc env _).2.trans (neighbor_pc env st).2⟩
      · rw [if_neg hp]
        by_cases hw : ps = PingStatus.waiting
        · rw [if_pos hw]
          exact ⟨((post_pc env _).1.trans (setPing_pc _ _).1).trans (replies_pc env st).1,
            ((post_pc env _).2.trans (setPing_pc _ _).2).trans (replies_pc env st).2⟩
        · rw [if_neg hw]
          exact ⟨(post_pc env _).1, (post_pc env _).2⟩

theorem pre_pc (env : Env) (st : PsState) :
    (peerSelectPre env st).1.paths = st.paths ∧
    (peerSelectPre env st).1.callbackCount = st.callbackCount := by
  unfold peerSelectPre
  split
  · exact ⟨rfl, rfl⟩
  · exact ⟨rfl, rfl⟩
  · exact go_pc env _

theorem pinned_direct (env : Env) (st : PsState) :
    (peerSelectPinned env st).direct = st.direct := by
  rw [pinned_shape]

theorem neighbor_direct (env : Env) (st : PsState) :
    (peerGetSomeNeighbor env st).direct = st.direct := by
  rw [neighbor_shape]

theorem setPing_direct (st : PsState) (s : PingStatus) :
    (setEntryPing st s).direct = st.direct := by
  rw [setEntryPing_eq]

theorem replies_direct (env : Env) (st : PsState) :
    (peerGetSomeNeighborReplies env st).direct = st.direct := by
  rw [replies_shape]

theorem post_direct (env : Env) (st : PsState) :
    (peerSelectPost env st).direct = st.direct := by
  obtain ⟨_, _, h3, _⟩ := SLonly_fields (post_SL env st)
  exact h3

theorem walkRun_direct (env : Env) (st : PsState) :
    (peerSelectDnsPathsRun env st).direct = st.direct :=
  (walk_keep env st.servers st).2.1

theorem go_direct (env : Env) (st : PsState) :
    (peerSelectGo env st).1.direct = st.direct := by
  unfold peerSelectGo
  by_cases hc : st.entry = none ∨ entryPing st = some .pnone
  · rw [if_pos hc]
    cases hep : entryPing (peerSelectPinned env st) with
    | none =>
      simp only [hep]
      exact (post_direct env _).trans (pinned_direct env st)
    | some ps =>
      simp only [hep]
      by_cases hp : ps = PingStatus.pnone
      · rw [if_pos hp]
        by_cases hw : entryPing (peerGetSomeNeighbor env (peerSelectPinned env st)) =
            some PingStatus.waiting
        · rw [if_pos hw]
          exact (neighbor_direct env _).trans (pinned_direct env st)
        · rw [if_neg hw]
          exact ((post_direct env _).trans (neighbor_direct env _)).trans (pinned_direct env st)
      · rw [if_neg hp]
        by_cases hw : ps = PingStatus.waiting
        · rw [if_pos hw]
          exact (((post_direct env _).trans (setPing_direct _ _)).trans
            (replies_direct env _)).trans (pinned_direct env st)
        · rw [if_neg hw]
          exact (post_direct env _).trans (pinned_direct env st)
  · rw [if_neg hc]
    cases hep : entryPing st with
    | none =>
      simp only [hep]
      exact post_direct env _
    | some ps =>
      simp only [hep]
      by_cases hp : ps = PingStatus.pnone
      · rw [if_pos hp]
        by_cases hw : entryPing (peerGetSomeNeighbor env st) = some PingStatus.waiting
        · rw [if_pos hw]
          exact neighbor_direct env st
        · rw [if_neg hw]
          exact (post_direct env _).trans (neighbor_direct env st)
      · rw [if_neg hp]
        by_cases hw : ps = PingStatus.waiting
        · rw [if_pos hw]
          exact ((post_direct env _).trans (setPing_direct _ _)).trans (replies_direct env st)
        · rw [if_neg hw]
          exact post_direct env _

theorem foo_direct (env : Env) (st : PsState) (hd : st.direct ≠ .unknown) :
    (peerSelectFoo env st).1.direct = st.direct := by
  unfold peerSelectFoo peerSelectPre
  rw [if_neg hd]
  dsimp only
  cases hgo : peerSelectGo env { st with direct := st.direct } with
  | mk st1 sop =>
    have h1 : st1.direct = st.direct := by
      have := go_direct env { st with direct := st.direct }
      rw [hgo] at this
      exact this
    cases sop with
    | none =>
      simp only
      exact (walkRun_direct env st1).trans h1
    | some s =>
      simp only
      exact h1

theorem go_waiting (env : Env) (st : PsState) (hw : entryPing st = some .waiting) :
    peerSelectGo env st =
      (peerSelectPost env (setEntryPing (peerGetSomeNeighborReplies env st) .done), none) := by
  unfold peerSelectGo
  have hpc : ¬(st.entry = none ∨ entryPing st = some .pnone) := by
    rintro (h | h)
    · simp [entryPing, h] at hw
    · rw [h] at hw
      exact absurd hw (by decide)
  rw [if_neg hpc]
  simp only [hw]
  rw [if_neg (by decide : ¬(PingStatus.waiting = PingStatus.pnone))]
  simp

theorem foo_waiting (env : Env) (st : PsState) (hd : st.direct ≠ .unknown)
    (hw : entryPing st = some .waiting) :
    peerSelectFoo env st =
      (peerSelectDnsPathsRun env
        (peerSelectPost env (setEntryPing (peerGetSomeNeighborReplies env st) .done)),
       none) := by
  unfold peerSelectFoo peerSelectPre
  rw [if_neg hd]
  dsimp only
  rw [go_waiting env { st with direct := st.direct } hw]

theorem replies_hit_eq (env : Env) (st : PsState) (p : Peer) (hp : st.hit = some p) :
    peerGetSomeNeighborReplies env st =
      if peerCheckNetdbDirect env st then addFwd st none .closestDirect
      else addFwd st (some p) (if st.hitKind = .parent then .parentHit else .siblingHit) := by
  unfold peerGetSomeNeighborReplies
  rw [hp]

/-- No record of this list carries one of the two parent-miss tags. -/
def NoMissCode (l : List FwdServer) : Prop :=
  ∀ fs ∈ l, fs.code ≠ .closestParentMiss ∧ fs.code ≠ .firstParentMiss

theorem NoMissCode_nil : NoMissCode [] := by
  intro fs h
  cases h

theorem NoMissCode_append {a b : List FwdServer} (ha : NoMissCode a) (hb : NoMissCode b) :
    NoMissCode (a ++ b) := by
  intro fs h
  rcases List.mem_append.1 h with h | h
  · exact ha fs h
  · exact hb fs h

theorem someDirect_log (st : PsState) :
    ∃ new, (peerGetSomeDirect st).log = st.log ++ new ∧
      (peerGetSomeDirect st).servers = st.servers ++ new ∧ NoMissCode new := by
  unfold peerGetSomeDirect addFwd
  split_ifs
  · exact ⟨[], by simp, by simp, NoMissCode_nil⟩
  · exact ⟨[], by simp, by simp, NoMissCode_nil⟩
  · refine ⟨[⟨none, .hierDirect⟩], rfl, rfl, ?_⟩
    intro fs h
    simp at h
    subst h
    exact ⟨by decide, by decide⟩

theorem parent_eq (env : Env) (st : PsState) (hd : st.direct ≠ .yes) :
    peerGetSomeParent env st =
      match parentStrategyChoice env st.request with
      | none => st
      | some (p, c) => addFwd st (some p) c := by
  unfold peerGetSomeParent parentStrategyChoice
  rw [if_neg hd]
  cases h1 : env.getDefaultParent st.request with
  | some p => simp only [h1]
  | none =>
    simp only [h1]
    cases h2 : env.peerUserHashSelectParent st.request with
    | some p => simp only [h2]
    | none =>
      simp only [h2]
      cases h3 : env.peerSourceHashSelectParent st.request with
      | some p => simp only [h3]
      | none =>
        simp only [h3]
        cases h4 : env.carpSelectParent st.request with
        | some p => simp only [h4]
        | none =>
          simp only [h4]
          cases h5 : env.getRoundRobinParent st.request with
          | some p => simp only [h5]
          | none =>
            simp only [h5]
            cases h6 : env.getWeightedRoundRobinParent st.request with
            | some p => simp only [h6]
            | none =>
              simp only [h6]
              cases h7 : env.getFirstUpParent st.request with
              | some p => simp only [h7]
              | none =>
                simp only [h7]
                cases h8 : env.getAnyParent st.request with
                | some p => simp only [h8]
                | none => simp only [h8]

theorem parentStrategyChoice_code (env : Env) (req : Request) (p : Peer) (c : HierCode)
    (h : parentStrategyChoice env req = some (p, c)) :
    c ≠ .closestParentMiss ∧ c ≠ .firstParentMiss := by
  unfold parentStrategyChoice at h
  repeat' split at h
  all_goals first
    | (cases h; exact ⟨by decide, by decide⟩)
    | cases h

theorem someParent_log (env : Env) (st : PsState) :
    ∃ new, (peerGetSomeParent env st).log = st.log ++ new ∧
      (peerGetSomeParent env st).servers = st.servers ++ new ∧ NoMissCode new := by
  by_cases hd : st.direct = Direct.yes
  · unfold peerGetSomeParent
    rw [if_pos hd]
    exact ⟨[], by simp, by simp, NoMissCode_nil⟩
  · rw [parent_eq env st hd]
    cases hch : parentStrategyChoice env st.request with
    | none => exact ⟨[], by simp, by simp, NoMissCode_nil⟩
    | some pc =>
      obtain ⟨p, c⟩ := pc
      refine ⟨[⟨some p, c⟩], rfl, rfl, ?_⟩
      intro fs hf
      rw [List.mem_singleton] at hf
      subst hf
      exact parentStrategyChoice_code env st.request p c hch

theorem foldl_aps_log (env : Env) :
    ∀ (ps : List Peer) (st : PsState),
      ∃ new, (ps.foldl (allParentStep env) st).log = st.log ++ new ∧
        (ps.foldl (allParentStep env) st).servers = st.servers ++ new ∧ NoMissCode new := by
  intro ps
  induction ps with
  | nil => intro st; exact ⟨[], by simp, by simp, NoMissCode_nil⟩
  | cons p ps ih =>
    intro st
    obtain ⟨new2, hl2, hs2, hn2⟩ := ih (allParentStep env st p)
    have hstep : ∃ new1, (allParentStep env st p).log = st.log ++ new1 ∧
        (allParentStep env st p).servers = st.servers ++ new1 ∧ NoMissCode new1 := by
      unfold allParentStep addFwd
      split_ifs
      · refine ⟨[⟨some p, .anyOldParent⟩], rfl, rfl, ?_⟩
        intro fs hf
        rw [List.mem_singleton] at hf
        subst hf
        exact ⟨by simp, by simp⟩
      · exact ⟨[], by simp, by simp, NoMissCode_nil⟩
    obtain ⟨new1, hl1, hs1, hn1⟩ := hstep
    refine ⟨new1 ++ new2, ?_, ?_, NoMissCode_append hn1 hn2⟩
    · show (List.foldl (allParentStep env) (allParentStep env st p) ps).log = _
      rw [hl2, hl1, List.append_assoc]
    · show (List.foldl (allParentStep env) (allParentStep env st p) ps).servers = _
      rw [hs2, hs1, List.append_assoc]

theorem allParents_log (env : Env) (st : PsState) :
    ∃ new, (peerGetAllParents env st).log = st.log ++ new ∧
      (peerGetAllParents env st).servers = st.servers ++ new ∧ NoMissCode new := by
  unfold peerGetAllParents
  dsimp only
  obtain ⟨new1, hl1, hs1, hn1⟩ := foldl_aps_log env env.peers st
  cases hd : env.getDefaultParent (env.peers.foldl (allParentStep env) st).request with
  | none =>
    simp only [hd]
    exact ⟨new1, hl1, hs1, hn1⟩
  | some p =>
    simp only [hd]
    refine ⟨new1 ++ [⟨some p, .defaultParent⟩], ?_, ?_, ?_⟩
    · unfold addFwd
      dsimp only
      rw [hl1, List.append_assoc]
    · unfold addFwd
      dsimp only
      rw [hs1, List.append_assoc]
    · refine NoMissCode_append hn1 ?_
      intro fs hf
      rw [List.mem_singleton] at hf
      subst hf
      exact ⟨by simp, by simp⟩

theorem post_log (env : Env) (st : PsState) :
    ∃ new, (peerSelectPost env st).log = st.log ++ new ∧
      (peerSelectPost env st).servers = st.servers ++ new ∧ NoMissCode new := by
  unfold peerSelectPost
  split
  · exact someDirect_log st
  · obtain ⟨n1, hl1, hs1, hn1⟩ := someParent_log env st
    obtain ⟨n2, hl2, hs2, hn2⟩ := allParents_log env (peerGetSomeParent env st)
    refine ⟨n1 ++ n2, ?_, ?_, NoMissCode_append hn1 hn2⟩
    · rw [hl2, hl1, List.append_assoc]
    · rw [hs2, hs1, List.append_assoc]
  · dsimp only
    by_cases hpd : env.preferDirect = true
    · have hpd' : ¬(env.preferDirect = false) := by
        rw [hpd]
        exact Bool.noConfusion
      rw [if_pos hpd, if_neg hpd']
      by_cases hh : (peerGetSomeDirect st).request.hierarchical = true ∨
          env.nonhierarchicalDirect = false
      · rw [if_pos hh]
        obtain ⟨n1, hl1, hs1, hn1⟩ := someDirect_log st
        obtain ⟨n2, hl2, hs2, hn2⟩ := someParent_log env (peerGetSomeDirect st)
        refine ⟨n1 ++ n2, ?_, ?_, NoMissCode_append hn1 hn2⟩
        · rw [hl2, hl1, List.append_assoc]
        · rw [hs2, hs1, List.append_assoc]
      · rw [if_neg hh]
        exact someDirect_log st
    · have hpd' : env.preferDirect = false := by
        revert hpd
        cases env.preferDirect <;> simp
      rw [if_neg hpd, if_pos hpd']
      by_cases hh : st.request.hierarchical = true ∨ env.nonhierarchicalDirect = false
      · rw [if_pos hh]
        obtain ⟨n1, hl1, hs1, hn1⟩ := someParent_log env st
        obtain ⟨n2, hl2, hs2, hn2⟩ := someDirect_log (peerGetSomeParent env st)
        refine ⟨n1 ++ n2, ?_, ?_, NoMissCode_append hn1 hn2⟩
        · rw [hl2, hl1, List.append_assoc]
        · rw [hs2, hs1, List.append_assoc]
      · rw [if_neg hh]
        exact someDirect_log st

theorem post_entry (env : Env) (st : PsState) :
    (peerSelectPost env st).entry = st.entry := by
  obtain ⟨_, h, _⟩ := SLonly_fields (post_SL env st)
  exact h

theorem post_hit (env : Env) (st : PsState) :
    (peerSelectPost env st).hit = st.hit := by
  obtain ⟨_, _, _, h, _⟩ := SLonly_fields (post_SL env st)
  exact h

theorem post_hitKind (env : Env) (st : PsState) :
    (peerSelectPost env st).hitKind = st.hitKind := by
  obtain ⟨_, _, _, _, h, _⟩ := SLonly_fields (post_SL env st)
  exact h

theorem post_timer (env : Env) (st : PsState) :
    (peerSelectPost env st).timerPending = st.timerPending := by
  obtain ⟨_, _, _, _, _, _, _, _, _, _, _, h, _⟩ := SLonly_fields (post_SL env st)
  exact h

theorem setPing_hit (st : PsState) (s : PingStatus) :
    (setEntryPing st s).hit = st.hit := by
  rw [setEntryPing_eq]

theorem setPing_hitKind (st : PsState) (s : PingStatus) :
    (setEntryPing st s).hitKind = st.hitKind := by
  rw [setEntryPing_eq]

theorem setPing_log (st : PsState) (s : PingStatus) :
    (setEntryPing st s).log = st.log := by
  rw [setEntryPing_eq]

theorem setPing_timer (st : PsState) (s : PingStatus) :
    (setEntryPing st s).timerPending = st.timerPending := by
  rw [setEntryPing_eq]

theorem setPing_entry (st : PsState) (s : PingStatus) :
    (setEntryPing st s).entry = st.entry.map fun e => { e with pingStatus := s } := by
  rw [setEntryPing_eq]

theorem replies_hit (env : Env) (st : PsState) :
    (peerGetSomeNeighborReplies env st).hit = st.hit := by
  rw [replies_shape]

theorem replies_hitKind (env : Env) (st : PsState) :
    (peerGetSomeNeighborReplies env st).hitKind = st.hitKind := by
  rw [replies_shape]

theorem replies_timer (env : Env) (st : PsState) :
    (peerGetSomeNeighborReplies env st).timerPending = st.timerPending := by
  rw [replies_shape]

theorem replies_entry (env : Env) (st : PsState) :
    (peerGetSomeNeighborReplies env st).entry = st.entry := by
  rw [replies_shape]

theorem foo_waiting_facts (env : Env) (st : PsState) (e : Entry) (p : Peer)
    (he : st.entry = some e) (hew : e.pingStatus = .waiting)
    (hd : st.direct = .no ∨ st.direct = .maybe) (hp : st.hit = some p) :
    (peerSelectFoo env st).2 = none ∧
    (peerSelectFoo env st).1.hit = some p ∧
    (peerSelectFoo env st).1.hitKind = st.hitKind ∧
    (peerSelectFoo env st).1.freed = true ∧
    (peerSelectFoo env st).1.entry = none ∧
    (peerSelectFoo env st).1.timerPending = st.timerPending ∧
    ∃ extra,
      (peerSelectFoo env st).1.log =
        st.log ++
          (if peerCheckNetdbDirect env st then FwdServer.mk none .closestDirect
           else FwdServer.mk (some p)
             (if st.hitKind = .parent then .parentHit else .siblingHit)) :: extra ∧
      NoMissCode extra := by
  have hw : entryPing st = some PingStatus.waiting := by
    unfold entryPing
    simp [he, hew]
  have hdne : st.direct ≠ .unknown := by
    rcases hd with h | h <;> simp [h]
  rw [foo_waiting env st hdne hw]
  unfold peerSelectDnsPathsRun
  dsimp only
  refine ⟨rfl, ?_, ?_, ?_, ?_, ?_, ?_⟩
  · rw [(walk_keep env _ _).2.2.1, post_hit, setPing_hit, replies_hit]
    exact hp
  · rw [(walk_keep env _ _).2.2.2.1, post_hitKind, setPing_hitKind, replies_hitKind]
  · exact walk_freed env _ _
  · exact walk_entry env _ _
  · have hent : entryPing (peerSelectPost env
        (setEntryPing (peerGetSomeNeighborReplies env st) .done)) =
          some PingStatus.done := by
      unfold entryPing
      rw [post_entry, setPing_entry, replies_entry, he]
      simp
    rw [walk_timer env _ _ (by rw [hent]; exact (by decide)),
      post_timer, setPing_timer, replies_timer]
  · obtain ⟨new, hl, hs, hn⟩ :=
      post_log env (setEntryPing (peerGetSomeNeighborReplies env st) .done)
    refine ⟨new, ?_, hn⟩
    have hwl : (dnsWalk env
        (peerSelectPost env (setEntryPing (peerGetSomeNeighborReplies env st) .done)).servers
        (peerSelectPost env (setEntryPing (peerGetSomeNeighborReplies env st) .done))).log =
        (peerSelectPost env (setEntryPing (peerGetSomeNeighborReplies env st) .done)).log :=
      (walk_keep env _ _).2.2.2.2.2.2.1
    have hX1log : (peerGetSomeNeighborReplies env st).log =
        st.log ++ [if peerCheckNetdbDirect env st then FwdServer.mk none .closestDirect
          else FwdServer.mk (some p)
            (if st.hitKind = .parent then .parentHit else .siblingHit)] := by
      rw [replies_hit_eq env st p hp]
      split_ifs <;> rfl
    show (dnsWalk env _ _).log = _
    rw [hwl, hl, setPing_log, hX1log, List.append_assoc]
    simp

theorem handler_hit_eq (env : Env) (r : IcpReply) (st : PsState) (hop : r.op = .hitOp) :
    peerHandleIcpReply env r st =
      fooState env
        { st with
          hit := some r.sender
          hitKind := r.kind
          ping := { st.ping with nRecv := st.ping.nRecv + 1 } } := by
  unfold peerHandleIcpReply
  dsimp only
  rw [hop]
  rw [if_neg (by decide :
    ¬(IcpOpcode.hitOp = IcpOpcode.missOp ∨ IcpOpcode.hitOp = IcpOpcode.dechoOp))]
  rw [if_pos (rfl : IcpOpcode.hitOp = IcpOpcode.hitOp)]

theorem handler_nofinal (env : Env) (r : IcpReply) (st : PsState)
    (hop : r.op ≠ .hitOp)
    (hlt : st.ping.nRecv + 1 < st.ping.nRepliesExpected) :
    peerHandleIcpReply env r st =
      { st with
        closestParentMiss := (peerHandleIcpReply env r st).closestParentMiss
        firstParentMiss := (peerHandleIcpReply env r st).firstParentMiss
        ping := { st.ping with
          nRecv := st.ping.nRecv + 1
          pRtt := (peerHandleIcpReply env r st).ping.pRtt
          wRtt := (peerHandleIcpReply env r st).ping.wRtt } } := by
  unfold peerHandleIcpReply
  dsimp only
  by_cases hmd : r.op = .missOp ∨ r.op = .dechoOp
  · rw [if_pos hmd]
    by_cases hk : r.kind = .parent
    · rw [if_pos hk]
      have hc : (peerIcpParentMiss env r
          { st with ping := { st.ping with nRecv := st.ping.nRecv + 1 } }).ping.nRecv <
          (peerIcpParentMiss env r
            { st with ping := { st.ping with nRecv := st.ping.nRecv + 1 } }).ping.nRepliesExpected := by
        rw [parentMiss_shape]
        exact hlt
      rw [if_pos hc]
      rw [parentMiss_shape]
    · rw [if_neg hk]
      rw [if_pos hlt]
  · rw [if_neg hmd]
    rw [if_neg hop]
    rw [if_pos hlt]

theorem deliver_cons_active (env : Env) (r : IcpReply) (rs : List IcpReply)
    (st : PsState) (hw : entryPing st = some .waiting) :
    deliverReplies env (r :: rs) st = deliverReplies env rs (peerHandleIcpReply env r st) := by
  unfold deliverReplies
  simp only [List.foldl_cons]
  rw [if_pos hw]

theorem deliver_stop (env : Env) :
    ∀ (rs : List IcpReply) (st : PsState), entryPing st ≠ some .waiting →
      deliverReplies env rs st = st := by
  intro rs
  induction rs with
  | nil => intro st h; rfl
  | cons r rest ih =>
    intro st h
    unfold deliverReplies
    simp only [List.foldl_cons]
    rw [if_neg h]
    exact ih st h

theorem deliver_append (env : Env) (xs ys : List IcpReply) (st : PsState) :
    deliverReplies env (xs ++ ys) st = deliverReplies env ys (deliverReplies env xs st) := by
  unfold deliverReplies
  exact List.foldl_append _ _ xs ys

theorem deliver_nofinal (env : Env) :
    ∀ (rs : List IcpReply) (st : PsState),
      entryPing st = some .waiting →
      (∀ r ∈ rs, r.op ≠ .hitOp) →
      st.ping.nRecv + rs.length < st.ping.nRepliesExpected →
      deliverReplies env rs st =
        { st with
          closestParentMiss := (deliverReplies env rs st).closestParentMiss
          firstParentMiss := (deliverReplies env rs st).firstParentMiss
          ping := { st.ping with
            nRecv := st.ping.nRecv + rs.length
            pRtt := (deliverReplies env rs st).ping.pRtt
            wRtt := (deliverReplies env rs st).ping.wRtt } } := by
  intro rs
  induction rs with
  | nil => intro st hw hop hlen; rfl
  | cons r rest ih =>
    intro st hw hop hlen
    rw [List.length_cons] at hlen ⊢
    have harith : st.ping.nRecv + (rest.length + 1) = st.ping.nRecv + 1 + rest.length := by
      omega
    rw [harith]
    have hr : r.op ≠ .hitOp := hop r (List.mem_cons_self r rest)
    have hlt1 : st.ping.nRecv + 1 < st.ping.nRepliesExpected := by omega
    rw [deliver_cons_active env r rest st hw]
    rw [handler_nofinal env r st hr hlt1]
    have hwX : entryPing
        { st with
          closestParentMiss := (peerHandleIcpReply env r st).closestParentMiss
          firstParentMiss := (peerHandleIcpReply env r st).firstParentMiss
          ping := { st.ping with
            nRecv := st.ping.nRecv + 1
            pRtt := (peerHandleIcpReply env r st).ping.pRtt
            wRtt := (peerHandleIcpReply env r st).ping.wRtt } } = some PingStatus.waiting := hw
    have hopX : ∀ s ∈ rest, s.op ≠ IcpOpcode.hitOp := fun s hs => hop s (List.mem_cons_of_mem r hs)
    have hlenX :
        ({ st with
          closestParentMiss := (peerHandleIcpReply env r st).closestParentMiss
          firstParentMiss := (peerHandleIcpReply env r st).firstParentMiss
          ping := { st.ping with
            nRecv := st.ping.nRecv + 1
            pRtt := (peerHandleIcpReply env r st).ping.pRtt
            wRtt := (peerHandleIcpReply env r st).ping.wRtt } } : PsState).ping.nRecv + rest.length <
        ({ st with
          closestParentMiss := (peerHandleIcpReply env r st).closestParentMiss
          firstParentMiss := (peerHandleIcpReply env r st).firstParentMiss
          ping := { st.ping with
            nRecv := st.ping.nRecv + 1
            pRtt := (peerHandleIcpReply env r st).ping.pRtt
            wRtt := (peerHandleIcpReply env r st).ping.wRtt } } : PsState).ping.nRepliesExpected := by
      show st.ping.nRecv + 1 + rest.length < st.ping.nRepliesExpected
      omega
    rw [ih _ hwX hopX hlenX]

theorem parentMiss_closestOf (env : Env) (r : IcpReply) (st : PsState)
    (hI : env.useIcmp = true) (hQ : env.queryIcmp = true) (hS : r.srcRtt = true) :
    closestOf (peerIcpParentMiss env r st) = closestStep (closestOf st) r := by
  unfold peerIcpParentMiss closestStep closestOf
  dsimp only
  split_ifs <;>
    first
      | rfl
      | (exact absurd (And.intro hI (And.intro hQ hS)) (by assumption))

theorem fold_closestOf (env : Env) (hI : env.useIcmp = true) (hQ : env.queryIcmp = true) :
    ∀ (rs : List IcpReply) (st : PsState), (∀ r ∈ rs, r.srcRtt = true) →
      closestOf (rs.foldl (fun s r => peerIcpParentMiss env r s) st) =
        rs.foldl closestStep (closestOf st) := by
  intro rs
  induction rs with
  | nil => intro st h; rfl
  | cons r rest ih =>
    intro st h
    simp only [List.foldl_cons]
    rw [ih (peerIcpParentMiss env r st) (fun s hs => h s (List.mem_cons_of_mem r hs)),
      parentMiss_closestOf env r st hI hQ (h r (List.mem_cons_self r rest))]

theorem closestStep_spec :
    ∀ (l : List IcpReply) (a : Addr) (p : Nat), 0 < p →
      ∃ (c : Addr) (m : Nat),
        l.foldl closestStep (some a, p) = (some c, m) ∧ 0 < m ∧ m ≤ p ∧
        (∀ r ∈ l, 0 < rttOf r → m ≤ rttOf r) ∧
        ((m = p ∧ c = a) ∨
          ∃ l₁ r l₂, l = l₁ ++ r :: l₂ ∧ 0 < rttOf r ∧ rttOf r = m ∧ m < p ∧
            c = r.sender.inAddr ∧ (∀ s ∈ l₁, 0 < rttOf s → m < rttOf s)) := by
  intro l
  induction l with
  | nil =>
    intro a p hp
    refine ⟨a, p, rfl, hp, le_refl p, ?_, Or.inl ⟨rfl, rfl⟩⟩
    intro r hr
    cases hr
  | cons r rest ih =>
    intro a p hp
    simp only [List.foldl_cons]
    by_cases hcond : rttOf r ≠ 0 ∧ (p = 0 ∨ rttOf r < p)
    · have hrpos : 0 < rttOf r := Nat.pos_of_ne_zero hcond.1
      have hrlt : rttOf r < p := by
        rcases hcond.2 with h | h
        · omega
        · exact h
      have hstep : closestStep (some a, p) r = (some r.sender.inAddr, rttOf r) := by
        unfold closestStep
        rw [if_pos hcond]
      rw [hstep]
      obtain ⟨c, m, heq, hm, hmle, hbound, hdisj⟩ := ih r.sender.inAddr (rttOf r) hrpos
      refine ⟨c, m, heq, hm, le_of_lt (lt_of_le_of_lt hmle hrlt), ?_, ?_⟩
      · intro s hs hspos
        rcases List.mem_cons.1 hs with hs | hs
        · subst hs
          exact hmle
        · exact hbound s hs hspos
      · rcases hdisj with ⟨hmp, hca⟩ | ⟨l₁, s, l₂, hsplit, hspos, hsm, hmlt, hcs, hearlier⟩
        · refine Or.inr ⟨[], r, rest, rfl, hrpos, ?_, ?_, ?_, ?_⟩
          · rw [hmp]
          · omega
          · rw [hca]
          · intro s hs
            cases hs
        · refine Or.inr ⟨r :: l₁, s, l₂, by simp [hsplit], hspos, hsm, ?_, hcs, ?_⟩
          · omega
          · intro t ht htpos
            rcases List.mem_cons.1 ht with ht | ht
            · subst ht
              omega
            · exact hearlier t ht htpos
    · have hstep : closestStep (some a, p) r = (some a, p) := by
        unfold closestStep
        rw [if_neg hcond]
      rw [hstep]
      obtain ⟨c, m, heq, hm, hmle, hbound, hdisj⟩ := ih a p hp
      have hge : 0 < rttOf r → p ≤ rttOf r := by
        intro hrpos
        by_contra hcon
        exact hcond ⟨Nat.pos_iff_ne_zero.1 hrpos, Or.inr (by omega)⟩
      refine ⟨c, m, heq, hm, hmle, ?_, ?_⟩
      · intro s hs hspos
        rcases List.mem_cons.1 hs with hs | hs
        · subst hs
          exact le_trans hmle (hge hspos)
        · exact hbound s hs hspos
      · rcases hdisj with ⟨hmp, hca⟩ | ⟨l₁, s, l₂, hsplit, hspos, hsm, hmlt, hcs, hearlier⟩
        · exact Or.inl ⟨hmp, hca⟩
        · refine Or.inr ⟨r :: l₁, s, l₂, by simp [hsplit], hspos, hsm, hmlt, hcs, ?_⟩
          intro t ht htpos
          rcases List.mem_cons.1 ht with ht | ht
          · subst ht
            exact lt_of_lt_of_le hmlt (hge htpos)
          · exact hearlier t ht htpos

theorem closestStep_zero (c : Option Addr × Nat) (r : IcpReply) (h : rttOf r = 0) :
    closestStep c r = c := by
  unfold closestStep
  rw [if_neg]
  intro hc
  exact hc.1 h

theorem closestStep_spec0 :
    ∀ (l : List IcpReply),
      ((∀ r ∈ l, rttOf r = 0) ∧ l.foldl closestStep (none, 0) = (none, 0)) ∨
      (∃ l₁ r l₂, l = l₁ ++ r :: l₂ ∧ 0 < rttOf r ∧
        l.foldl closestStep (none, 0) = (some r.sender.inAddr, rttOf r) ∧
        (∀ s ∈ l, 0 < rttOf s → rttOf r ≤ rttOf s) ∧
        (∀ s ∈ l₁, 0 < rttOf s → rttOf r < rttOf s)) := by
  intro l
  induction l with
  | nil =>
    left
    refine ⟨?_, rfl⟩
    intro r hr
    cases hr
  | cons r rest ih =>
    by_cases hr0 : rttOf r = 0
    · have hstep : closestStep (none, 0) r = (none, 0) := closestStep_zero _ r hr0
      rcases ih with ⟨hz, heq⟩ | ⟨l₁, s, l₂, hsp, hspos, heq, hmin, hfirst⟩
      · left
        refine ⟨?_, ?_⟩
        · intro t ht
          rcases List.mem_cons.1 ht with ht | ht
          · subst ht
            exact hr0
          · exact hz t ht
        · simp only [List.foldl_cons]
          rw [hstep]
          exact heq
      · right
        refine ⟨r :: l₁, s, l₂, by simp [hsp], hspos, ?_, ?_, ?_⟩
        · simp only [List.foldl_cons]
          rw [hstep]
          exact heq
        · intro t ht
          rcases List.mem_cons.1 ht with ht | ht
          · subst ht
            intro hpos
            exact absurd hr0 (by omega)
          · exact hmin t ht
        · intro t ht
          rcases List.mem_cons.1 ht with ht | ht
          · subst ht
            intro hpos
            exact absurd hr0 (by omega)
          · exact hfirst t ht
    · have hrpos : 0 < rttOf r := Nat.pos_of_ne_zero hr0
      have hstep : closestStep (none, 0) r = (some r.sender.inAddr, rttOf r) := by
        unfold closestStep
        rw [if_pos ⟨hr0, Or.inl rfl⟩]
      right
      obtain ⟨c, m, heq, hm, hmle, hbound, hdisj⟩ :=
        closestStep_spec rest r.sender.inAddr (rttOf r) hrpos
      rcases hdisj with ⟨hmp, hca⟩ | ⟨l₁, s, l₂, hsp, hspos, hsm, hmlt, hcs, hearlier⟩
      · refine ⟨[], r, rest, rfl, hrpos, ?_, ?_, ?_⟩
        · simp only [List.foldl_cons]
          rw [hstep, heq, hca, hmp]
        · intro t ht
          rcases List.mem_cons.1 ht with ht | ht
          · subst ht
            intro _
            exact le_refl _
          · intro hpos
            rw [← hmp]
            exact hbound t ht hpos
        · intro t ht
          cases ht
      · refine ⟨r :: l₁, s, l₂, by simp [hsp], hspos, ?_, ?_, ?_⟩
        · simp only [List.foldl_cons]
          rw [hstep, heq, hcs, hsm]
        · intro t ht
          rcases List.mem_cons.1 ht with ht | ht
          · subst ht
            intro _
            rw [hsm]
            exact le_of_lt hmlt
          · intro hpos
            rw [hsm]
            exact hbound t ht hpos
        · intro t ht
          rcases List.mem_cons.1 ht with ht | ht
          · subst ht
            intro _
            rw [hsm]
            exact hmlt
          · intro hpos
            rw [hsm]
            exact hearlier t ht hpos

theorem deliver_hit_final (env : Env) (st : PsState) (e : Entry) (r : IcpReply)
    (he : st.entry = some e) (hew : e.pingStatus = .waiting)
    (hd : st.direct = .no ∨ st.direct = .maybe) (hr : r.op = .hitOp) :
    (peerHandleIcpReply env r st).hit = some r.sender ∧
    (peerHandleIcpReply env r st).hitKind = r.kind ∧
    (peerHandleIcpReply env r st).freed = true ∧
    (peerHandleIcpReply env r st).entry = none ∧
    (peerHandleIcpReply env r st).timerPending = st.timerPending ∧
    ∃ fs extra,
      (fs = FwdServer.mk none .closestDirect ∨
        fs = FwdServer.mk (some r.sender)
          (if r.kind = .parent then .parentHit else .siblingHit)) ∧
      NoMissCode (fs :: extra) ∧
      (peerHandleIcpReply env r st).log = st.log ++ fs :: extra := by
  rw [handler_hit_eq env r st hr]
  set stH : PsState :=
    { st with
      hit := some r.sender
      hitKind := r.kind
      ping := { st.ping with nRecv := st.ping.nRecv + 1 } } with hstH
  have he2 : stH.entry = some e := he
  have hd2 : stH.direct = .no ∨ stH.direct = .maybe := hd
  have hp2 : stH.hit = some r.sender := rfl
  obtain ⟨g1, g2, g3, g4, g5, g6, extra, hlg, hnm⟩ :=
    foo_waiting_facts env stH e r.sender he2 hew hd2 hp2
  refine ⟨g2, g3, g4, g5, g6, ?_⟩
  refine ⟨_, extra, ?_, ?_, hlg⟩
  · by_cases h : peerCheckNetdbDirect env stH = true
    · left
      rw [if_pos h]
    · right
      rw [if_neg h]
  · intro g hg
    rcases List.mem_cons.1 hg with hg | hg
    · subst hg
      by_cases h : peerCheckNetdbDirect env stH = true
      · rw [if_pos h]
        exact ⟨by decide, by decide⟩
      · rw [if_neg h]
        constructor <;> (split_ifs <;> simp)
    · exact hnm g hg

theorem foo_waiting_final (env : Env) (st : PsState) (e : Entry)
    (he : st.entry = some e) (hew : e.pingStatus = .waiting)
    (hd : st.direct ≠ .unknown) :
    (peerSelectFoo env st).2 = none ∧
    (peerSelectFoo env st).1.freed = true ∧
    (peerSelectFoo env st).1.entry = none ∧
    (peerSelectFoo env st).1.timerPending = st.timerPending := by
  have hw : entryPing st = some PingStatus.waiting := by
    unfold entryPing
    rw [he]
    simp [hew]
  rw [foo_waiting env st hd hw]
  unfold peerSelectDnsPathsRun
  dsimp only
  refine ⟨rfl, ?_, ?_, ?_⟩
  · exact walk_freed env _ _
  · exact walk_entry env _ _
  · have hent : entryPing (peerSelectPost env
        (setEntryPing (peerGetSomeNeighborReplies env st) .done)) =
          some PingStatus.done := by
      unfold entryPing
      rw [post_entry, setPing_entry, replies_entry, he]
      simp
    rw [walk_timer env _ _ (by rw [hent]; exact (by decide)),
      post_timer, setPing_timer, replies_timer]

theorem handler_quorum_final (env : Env) (r : IcpReply) (st : PsState) (e : Entry)
    (he : st.entry = some e) (hew : e.pingStatus = .waiting)
    (hd : st.direct ≠ .unknown)
    (hop : r.op ≠ .hitOp)
    (hq : st.ping.nRecv + 1 = st.ping.nRepliesExpected) :
    (peerHandleIcpReply env r st).freed = true ∧
    (peerHandleIcpReply env r st).entry = none ∧
    (peerHandleIcpReply env r st).timerPending = st.timerPending := by
  unfold peerHandleIcpReply
  dsimp only
  by_cases hmd : r.op = .missOp ∨ r.op = .dechoOp
  · rw [if_pos hmd]
    by_cases hk : r.kind = .parent
    · rw [if_pos hk]
      have hsh := parentMiss_shape env r
        { st with ping := { st.ping with nRecv := st.ping.nRecv + 1 } }
      have hnl : ¬((peerIcpParentMiss env r
          { st with ping := { st.ping with nRecv := st.ping.nRecv + 1 } }).ping.nRecv <
          (peerIcpParentMiss env r
            { st with ping := { st.ping with nRecv := st.ping.nRecv + 1 } }).ping.nRepliesExpected) := by
        rw [hsh]
        show ¬(st.ping.nRecv + 1 < st.ping.nRepliesExpected)
        omega
      rw [if_neg hnl]
      have he2 : (peerIcpParentMiss env r
          { st with ping := { st.ping with nRecv := st.ping.nRecv + 1 } }).entry = some e := by
        rw [hsh]
        exact he
      have hd2 : (peerIcpParentMiss env r
          { st with ping := { st.ping with nRecv := st.ping.nRecv + 1 } }).direct ≠ .unknown := by
        rw [hsh]
        exact hd
      obtain ⟨_, hf, hn, ht⟩ := foo_waiting_final env
        (peerIcpParentMiss env r
          { st with ping := { st.ping with nRecv := st.ping.nRecv + 1 } }) e he2 hew hd2
      refine ⟨hf, hn, ?_⟩
      show (peerSelectFoo env (peerIcpParentMiss env r
          { st with ping := { st.ping with nRecv := st.ping.nRecv + 1 } })).1.timerPending =
        st.timerPending
      rw [ht, hsh]
    · rw [if_neg hk]
      have hnl : ¬(st.ping.nRecv + 1 < st.ping.nRepliesExpected) := by omega
      rw [if_neg hnl]
      obtain ⟨_, hf, hn, ht⟩ := foo_waiting_final env
        { st with ping := { st.ping with nRecv := st.ping.nRecv + 1 } } e he hew hd
      exact ⟨hf, hn, ht⟩
  · rw [if_neg hmd]
    rw [if_neg hop]
    have hnl : ¬(st.ping.nRecv + 1 < st.ping.nRepliesExpected) := by omega
    rw [if_neg hnl]
    obtain ⟨_, hf, hn, ht⟩ := foo_waiting_final env
      { st with ping := { st.ping with nRecv := st.ping.nRecv + 1 } } e he hew hd
    exact ⟨hf, hn, ht⟩

/-! ## Claims -/

/-- C1: for every selection, the DNS resolver stage invokes the callback
exactly once (and not at all when the caller's reference has become
invalid), and the paths list holds at most forward_max_tries destinations
at every capacity check of the stage — both when deciding whether to issue
the next DNS lookup and when appending addresses from one DNS result
(sizeTrace records the length observed at each such check); the phases
before the DNS stage never touch paths or invoke the callback. -/
theorem C1_dns_callback_once_and_bounded :
    (∀ (env : Env) (st : PsState),
      st.paths.length ≤ env.forwardMaxTries →
      st.callbackCount = 0 →
      st.sizeTrace = [] →
      (peerSelectDnsPathsRun env st).callbackCount = (if st.cbValid then 1 else 0) ∧
      (peerSelectDnsPathsRun env st).paths.length ≤ env.forwardMaxTries ∧
      (∀ n ∈ (peerSelectDnsPathsRun env st).sizeTrace, n ≤ env.forwardMaxTries)) ∧
    (∀ (env : Env) (st : PsState),
      (peerSelectPre env st).1.paths = st.paths ∧
      (peerSelectPre env st).1.callbackCount = st.callbackCount) := by
  constructor
  · intro env st hlen hcb htr
    obtain ⟨h1, h2, tr, h3, h4⟩ := walk_main env st.servers st hlen
    refine ⟨?_, h2, ?_⟩
    · unfold peerSelectDnsPathsRun
      rw [h1, hcb]
      simp
    · intro n hn
      unfold peerSelectDnsPathsRun at hn
      rw [h3, htr] at hn
      simp only [List.nil_append] at hn
      exact h4 n hn
  · exact pre_pc

/-- C1 witness: a concrete stage entry with cap 2 and a three-address DNS
answer invokes the callback exactly once and caps paths at 2. -/
theorem C1_witness :
    (peerSelectDnsPathsRun envC1 stC1).callbackCount = 1 ∧
    (peerSelectDnsPathsRun envC1 stC1).paths.length ≤ envC1.forwardMaxTries := by
  have h := C1_dns_callback_once_and_bounded.1 envC1 stC1 (by decide) rfl rfl
  refine ⟨?_, h.2.1⟩
  rw [h.1]
  decide

/-- C2: on the failing input (two addresses, cursor 1) the source's address
loop appends the addresses in index order 0,1 — the rotation index ip is
computed but never used — while the claimed rotated order starting at cur
is 1,0; the two orders differ. -/
theorem C2_rotation_divergence :
    iaC2.cur = 1 ∧ iaC2.count = 2 ∧
    (peerSelectDnsResultsStep baseEnv fsC2 (some iaC2) stC2).paths.map Destination.remote =
      [⟨0, true⟩, ⟨1, true⟩] ∧
    rotatedAddrs iaC2 = [⟨1, true⟩, ⟨0, true⟩] ∧
    (peerSelectDnsResultsStep baseEnv fsC2 (some iaC2) stC2).paths.map Destination.remote ≠
      rotatedAddrs iaC2 := by
  refine ⟨rfl, rfl, by decide, by decide, by decide⟩

/-- C9: a selection started with a null entry reaches the DNS resolver
stage, which evaluates the entry handle in its logging both when issuing
the next lookup (level-2 line) and when reporting completion (level-1
line for an empty result), with no null check in between. -/
theorem C9_null_entry_deref :
    (peerSelect envC9 [] baseReq none true).1.derefAtLookup = true ∧
    (peerSelect envC9 [] baseReq none true).1.derefAtComplete = true ∧
    (peerSelect envC9 [] baseReq none true).2 = none := by decide

/-- C5: with both ACL answers available, the arbiter decides direct by the
claimed first-match rule order (always_direct positive gives YES,
never_direct positive gives NO, no_direct gives NO, loopdetect gives YES,
the net-db direct check gives YES, otherwise MAYBE); and once direct is
decided, re-entering peerSelectFoo leaves it unchanged. -/
theorem C5_direct_arbiter :
    (∀ (env : Env) (st : PsState),
      st.direct = .unknown →
      ¬(st.alwaysDirect = 0 ∧ env.hasAlwaysDirectAcl = true) →
      ¬(st.neverDirect = 0 ∧ env.hasNeverDirectAcl = true) →
      peerSelectDirectDecision env st = .go (directClaim env st)) ∧
    (∀ (env : Env) (st : PsState), st.direct ≠ .unknown →
      (peerSelectFoo env st).1.direct = st.direct) := by
  constructor
  · intro env st hu h1 h2
    unfold peerSelectDirectDecision directClaim
    rw [if_neg h1]
    split_ifs <;>
      first
        | rfl
        | (exact absurd (by assumption) h2)
  · intro env st h
    exact foo_direct env st h

/-- C5 witness: on a fresh context with no ACL lists the arbiter decides
MAYBE, and a pass through peerSelectFoo on a MAYBE context leaves direct
MAYBE. -/
theorem C5_witness :
    peerSelectDirectDecision baseEnv stC5 = ArbOut.go (directClaim baseEnv stC5) ∧
    directClaim baseEnv stC5 = Direct.maybe ∧
    (peerSelectFoo baseEnv stC5b).1.direct = Direct.maybe := by
  refine ⟨C5_direct_arbiter.1 baseEnv stC5 rfl (by decide) (by decide), by decide, ?_⟩
  have h := C5_direct_arbiter.2 baseEnv stC5b (by decide)
  rw [h]
  rfl

/-- C6 counterexample: with a privately-keyed PING_NONE entry,
private-key peer exchange disallowed, and direct == NO, the fan-out gate
still returns a positive neighbor count, so the claimed necessary
condition (neighbors_do_private_keys) fails. -/
theorem C6_counterexample :
    eC6.pingStatus = .pnone ∧ Direct.no ≠ Direct.yes ∧
    0 < peerSelectIcpPing envC6 baseReq .no eC6 ∧
    eC6.keyPrivate = true ∧ envC6.neighborsDoPrivateKeys = false ∧
    baseReq.hierarchical = false := by decide

/-- C6 (amended): a ping fan-out is initiated only if the request is
hierarchical or direct == NO, and, for privately-keyed entries, only if
private-key peer exchange is allowed or direct == NO. -/
theorem C6_amended_gates :
    ∀ (env : Env) (req : Request) (d : Direct) (e : Entry),
      e.pingStatus = .pnone → d ≠ .yes →
      0 < peerSelectIcpPing env req d e →
      (req.hierarchical = true ∨ d = .no) ∧
      (e.keyPrivate = true → env.neighborsDoPrivateKeys = true ∨ d = .no) := by
  intro env req d e hp hd hpos
  unfold peerSelectIcpPing at hpos
  by_cases h1 : req.hierarchical = false ∧ d ≠ .no
  · rw [if_pos h1] at hpos
    exact absurd hpos (by decide)
  · have hA : req.hierarchical = true ∨ d = .no := by
      by_cases hh : req.hierarchical = true
      · exact Or.inl hh
      · have hh' : req.hierarchical = false := by
          revert hh
          cases req.hierarchical <;> simp
        right
        by_contra hdno
        exact h1 ⟨hh', hdno⟩
    refine ⟨hA, ?_⟩
    intro hkp
    rw [if_neg h1] at hpos
    by_cases h2 : e.keyPrivate = true ∧ env.neighborsDoPrivateKeys = false
    · rw [if_pos h2] at hpos
      by_cases h3 : d ≠ .no
      · rw [if_pos h3] at hpos
        exact absurd hpos (by decide)
      · push_neg at h3
        exact Or.inr h3
    · left
      by_contra hdp
      have hdp' : env.neighborsDoPrivateKeys = false := by
        revert hdp
        cases env.neighborsDoPrivateKeys <;> simp
      exact h2 ⟨hkp, hdp'⟩

/-- C6 witness: a hierarchical request with a non-private entry satisfies
the amended gates at a concrete positive fan-out. -/
theorem C6_witness :
    (reqC6w.hierarchical = true ∨ Direct.maybe = Direct.no) ∧
    (eC6w.keyPrivate = true → envC6w.neighborsDoPrivateKeys = true ∨ Direct.maybe = Direct.no) :=
  C6_amended_gates envC6w reqC6w .maybe eC6w (by decide) (by decide) (by decide)

/-- C7: the parent selector consults the eight strategies in the fixed
priority order encoded by parentStrategyChoice (default, userhash,
sourcehash, CARP, round-robin, weighted round-robin, first-up, any), the
first non-null strategy determines the single appended record and its
tag, at most one record is appended, and none when direct == YES. -/
theorem C7_parent_priority :
    ∀ (env : Env) (st : PsState),
      (st.direct = .yes → peerGetSomeParent env st = st) ∧
      (st.direct ≠ .yes →
        peerGetSomeParent env st =
          match parentStrategyChoice env st.request with
          | none => st
          | some (p, c) => addFwd st (some p) c) ∧
      (peerGetSomeParent env st).servers.length ≤ st.servers.length + 1 := by
  intro env st
  refine ⟨?_, parent_eq env st, ?_⟩
  · intro h
    unfold peerGetSomeParent
    rw [if_pos h]
  · by_cases hd : st.direct = .yes
    · unfold peerGetSomeParent
      rw [if_pos hd]
      omega
    · rw [parent_eq env st hd]
      cases parentStrategyChoice env st.request with
      | none =>
        show st.servers.length ≤ st.servers.length + 1
        omega
      | some pc =>
        obtain ⟨p, c⟩ := pc
        unfold addFwd
        simp

/-- C7 witness: with a default parent configured the selector appends
exactly the DEFAULT_PARENT record for it. -/
theorem C7_witness :
    peerGetSomeParent envC7 stC5b = addFwd stC5b (some peerA) .defaultParent := by
  have h := (C7_parent_priority envC7 stC5b).2.1 (by decide)
  rw [h]
  rfl

theorem foldl_aps_codes (env : Env) :
    ∀ (ps : List Peer) (st : PsState),
      ∃ mid, (∀ fs ∈ mid, fs.code = HierCode.anyOldParent) ∧
        (ps.foldl (allParentStep env) st).servers = st.servers ++ mid ∧
        (ps.foldl (allParentStep env) st).log = st.log ++ mid := by
  intro ps
  induction ps with
  | nil =>
    intro st
    refine ⟨[], ?_, by simp, by simp⟩
    intro fs h
    cases h
  | cons p ps ih =>
    intro st
    obtain ⟨mid2, hc2, hs2, hl2⟩ := ih (allParentStep env st p)
    have hstep : ∃ mid1, (∀ fs ∈ mid1, fs.code = HierCode.anyOldParent) ∧
        (allParentStep env st p).servers = st.servers ++ mid1 ∧
        (allParentStep env st p).log = st.log ++ mid1 := by
      unfold allParentStep addFwd
      split_ifs
      · refine ⟨[⟨some p, .anyOldParent⟩], ?_, rfl, rfl⟩
        intro fs hf
        rw [List.mem_singleton] at hf
        subst hf
        rfl
      · refine ⟨[], ?_, by simp, by simp⟩
        intro fs h
        cases h
    obtain ⟨mid1, hc1, hs1, hl1⟩ := hstep
    refine ⟨mid1 ++ mid2, ?_, ?_, ?_⟩
    · intro fs hf
      rcases List.mem_append.1 hf with hf | hf
      · exact hc1 fs hf
      · exact hc2 fs hf
    · show (List.foldl (allParentStep env) (allParentStep env st p) ps).servers = _
      rw [hs2, hs1, List.append_assoc]
    · show (List.foldl (allParentStep env) (allParentStep env st p) ps).log = _
      rw [hl2, hl1, List.append_assoc]

/-- C10: on the DIRECT_NO path with a default parent configured, the
servers list receives two DEFAULT_PARENT records for that same peer — one
appended first by the parent selector (where getDefaultParent has highest
priority) and a second appended last by the all-parents fallback — with
only ANY_OLD_PARENT records in between. -/
theorem C10_double_default_parent :
    ∀ (env : Env) (st : PsState) (p : Peer),
      st.direct = .no →
      env.getDefaultParent st.request = some p →
      ∃ mid, (∀ fs ∈ mid, fs.code = HierCode.anyOldParent) ∧
        (peerGetAllParents env (peerGetSomeParent env st)).servers =
          st.servers ++
            FwdServer.mk (some p) .defaultParent ::
              (mid ++ [FwdServer.mk (some p) .defaultParent]) := by
  intro env st p hd hdef
  have hne : st.direct ≠ .yes := by
    rw [hd]
    decide
  rw [parent_eq env st hne]
  have hch : parentStrategyChoice env st.request = some (p, .defaultParent) := by
    unfold parentStrategyChoice
    rw [hdef]
  rw [hch]
  unfold peerGetAllParents
  dsimp only
  obtain ⟨mid, hcodes, hserv, hlog⟩ :=
    foldl_aps_codes env env.peers (addFwd st (some p) .defaultParent)
  have hreq : (env.peers.foldl (allParentStep env) (addFwd st (some p) .defaultParent)).request =
      st.request := by
    obtain ⟨h, _⟩ :=
      SLonly_fields (foldl_aps_SL env env.peers (addFwd st (some p) .defaultParent))
    exact h
  rw [hreq]
  simp only [hdef]
  refine ⟨mid, hcodes, ?_⟩
  show (List.foldl (allParentStep env) (addFwd st (some p) HierCode.defaultParent)
      env.peers).servers ++ [FwdServer.mk (some p) .defaultParent] =
    st.servers ++
      FwdServer.mk (some p) .defaultParent ::
        (mid ++ [FwdServer.mk (some p) .defaultParent])
  rw [hserv]
  show ((st.servers ++ [FwdServer.mk (some p) .defaultParent]) ++ mid) ++
      [FwdServer.mk (some p) .defaultParent] = _
  simp

/-- C10 witness: with default parent A and one alive parent B, the
DIRECT_NO path produces servers [A default, B any-old, A default]. -/
theorem C10_witness :
    ∃ mid, (∀ fs ∈ mid, fs.code = HierCode.anyOldParent) ∧
      (peerGetAllParents envC10 (peerGetSomeParent envC10 stC10)).servers =
        stC10.servers ++
          FwdServer.mk (some peerA) .defaultParent ::
            (mid ++ [FwdServer.mk (some peerA) .defaultParent]) :=
  C10_double_default_parent envC10 stC10 peerA rfl rfl

/-- C4: over any MISS-only parent reply sequence carrying SRC_RTT data with
ICMP querying enabled, starting from a context with no closest miss
recorded, either every reply's rtt is zero and closest_parent_miss stays
unset, or closest_parent_miss ends up holding the address of the first
reply achieving the minimum positive rtt (a later equal rtt never replaces
it, since replacement requires rtt strictly below p_rtt), and p_rtt ends at
that minimum. -/
theorem C4_closest_parent_miss_min (env : Env) (rs : List IcpReply) (st : PsState)
    (hI : env.useIcmp = true) (hQ : env.queryIcmp = true)
    (hS : ∀ r ∈ rs, r.srcRtt = true)
    (h0 : st.closestParentMiss = none) (hp0 : st.ping.pRtt = 0) :
    ((∀ r ∈ rs, rttOf r = 0) ∧
      (rs.foldl (fun s r => peerIcpParentMiss env r s) st).closestParentMiss = none) ∨
    (∃ l₁ r l₂, rs = l₁ ++ r :: l₂ ∧ 0 < rttOf r ∧
      (rs.foldl (fun s r => peerIcpParentMiss env r s) st).closestParentMiss =
        some r.sender.inAddr ∧
      (rs.foldl (fun s r => peerIcpParentMiss env r s) st).ping.pRtt = rttOf r ∧
      (∀ s ∈ rs, 0 < rttOf s → rttOf r ≤ rttOf s) ∧
      (∀ s ∈ l₁, 0 < rttOf s → rttOf r < rttOf s)) := by
  have hfold := fold_closestOf env hI hQ rs st hS
  have hstart : closestOf st = (none, 0) := by
    unfold closestOf
    rw [h0, hp0]
  rw [hstart] at hfold
  rcases closestStep_spec0 rs with ⟨hz, heq⟩ | ⟨l₁, r, l₂, hsp, hrpos, heq, hmin, hfirst⟩
  · left
    exact ⟨hz, congrArg Prod.fst (hfold.trans heq)⟩
  · right
    exact ⟨l₁, r, l₂, hsp, hrpos, congrArg Prod.fst (hfold.trans heq),
      congrArg Prod.snd (hfold.trans heq), hmin, hfirst⟩

/-- C4 witness: rtts 50, 30, 30 — the fold records the first 30 (peerB) as
closest_parent_miss and the later tie does not replace it. -/
theorem C4_witness :
    ((∀ r ∈ rsC4, rttOf r = 0) ∧
      (rsC4.foldl (fun s r => peerIcpParentMiss envC4 r s) (waitSt 3)).closestParentMiss =
        none) ∨
    (∃ l₁ r l₂, rsC4 = l₁ ++ r :: l₂ ∧ 0 < rttOf r ∧
      (rsC4.foldl (fun s r => peerIcpParentMiss envC4 r s) (waitSt 3)).closestParentMiss =
        some r.sender.inAddr ∧
      (rsC4.foldl (fun s r => peerIcpParentMiss envC4 r s) (waitSt 3)).ping.pRtt = rttOf r ∧
      (∀ s ∈ rsC4, 0 < rttOf s → rttOf r ≤ rttOf s) ∧
      (∀ s ∈ l₁, 0 < rttOf s → rttOf r < rttOf s)) :=
  C4_closest_parent_miss_min envC4 rsC4 (waitSt 3) rfl rfl (by decide) rfl rfl

/-- C3 counterexample: with the net-db direct check passing at finalization
(origin rtt 5 below minimum_direct_rtt 10), a lone parent ICP_HIT records
hit and finalizes, but the finalized selection's first appended record is
CLOSEST_DIRECT, and no PARENT_HIT or SIBLING_HIT record appears at all —
the claim's "appends the HIT peer (tagged PARENT_HIT or SIBLING_HIT)"
fails. -/
theorem C3_counterexample :
    (deliverReplies envC3x [hitReplyA] (waitSt 1)).hit = some peerA ∧
    (deliverReplies envC3x [hitReplyA] (waitSt 1)).hitKind = .parent ∧
    (deliverReplies envC3x [hitReplyA] (waitSt 1)).freed = true ∧
    (deliverReplies envC3x [hitReplyA] (waitSt 1)).log.head? =
      some (FwdServer.mk none .closestDirect) ∧
    (∀ fs ∈ (deliverReplies envC3x [hitReplyA] (waitSt 1)).log,
      fs.code ≠ .parentHit ∧ fs.code ≠ .siblingHit) := by decide

/-- C3 (amended): for a reply sequence of non-HIT replies followed by the
first HIT and then any further replies, the aggregator records the HIT's
peer and relation and finalizes immediately (freed while still short of
the expected reply count); the replies after the HIT have no effect; and
the finalized selection appends first either the HIT peer tagged
PARENT_HIT or SIBLING_HIT or — when the net-db direct check passes at
finalization — a CLOSEST_DIRECT record, and never appends a
FIRST_PARENT_MISS or CLOSEST_PARENT_MISS record. -/
theorem C3_hit_finalizes (env : Env) (st : PsState) (e : Entry)
    (rs qs : List IcpReply) (r : IcpReply)
    (he : st.entry = some e) (hew : e.pingStatus = .waiting)
    (hd : st.direct = .no ∨ st.direct = .maybe)
    (hr : r.op = .hitOp)
    (hpre : ∀ s ∈ rs, s.op ≠ .hitOp)
    (hlen : st.ping.nRecv + rs.length < st.ping.nRepliesExpected) :
    deliverReplies env (rs ++ r :: qs) st = deliverReplies env (rs ++ [r]) st ∧
    (deliverReplies env (rs ++ r :: qs) st).hit = some r.sender ∧
    (deliverReplies env (rs ++ r :: qs) st).hitKind = r.kind ∧
    (deliverReplies env (rs ++ r :: qs) st).freed = true ∧
    ∃ fs extra,
      (fs = FwdServer.mk none .closestDirect ∨
        fs = FwdServer.mk (some r.sender)
          (if r.kind = .parent then .parentHit else .siblingHit)) ∧
      NoMissCode (fs :: extra) ∧
      (deliverReplies env (rs ++ r :: qs) st).log = st.log ++ fs :: extra := by
  have hw : entryPing st = some .waiting := by
    unfold entryPing
    rw [he]
    simp [hew]
  have hsh := deliver_nofinal env rs st hw hpre hlen
  have h1e : (deliverReplies env rs st).entry = st.entry := by rw [hsh]
  have h1d : (deliverReplies env rs st).direct = st.direct := by rw [hsh]
  have h1log : (deliverReplies env rs st).log = st.log := by rw [hsh]
  have h1t : (deliverReplies env rs st).timerPending = st.timerPending := by rw [hsh]
  have hw1 : entryPing (deliverReplies env rs st) = some .waiting := by
    unfold entryPing
    rw [h1e, he]
    simp [hew]
  have hstep : deliverReplies env (rs ++ [r]) st =
      peerHandleIcpReply env r (deliverReplies env rs st) := by
    rw [deliver_append, deliver_cons_active env r [] _ hw1]
    rfl
  have he1 : (deliverReplies env rs st).entry = some e := h1e.trans he
  have hd1 : (deliverReplies env rs st).direct = .no ∨
      (deliverReplies env rs st).direct = .maybe := by
    rw [h1d]
    exact hd
  obtain ⟨f1, f2, f3, f4, f5, fs, extra, hfs, hnm, hlog⟩ :=
    deliver_hit_final env (deliverReplies env rs st) e r he1 hew hd1 hr
  have hstop : entryPing (peerHandleIcpReply env r (deliverReplies env rs st)) ≠
      some .waiting := by
    unfold entryPing
    rw [f4]
    simp
  have hwhole : deliverReplies env (rs ++ r :: qs) st =
      peerHandleIcpReply env r (deliverReplies env rs st) := by
    have h2 : rs ++ r :: qs = (rs ++ [r]) ++ qs := by simp
    rw [h2, deliver_append, hstep, deliver_stop env qs _ hstop]
  refine ⟨?_, ?_, ?_, ?_, ?_⟩
  · rw [hwhole, hstep]
  · rw [hwhole]
    exact f1
  · rw [hwhole]
    exact f2
  · rw [hwhole]
    exact f3
  · refine ⟨fs, extra, hfs, hnm, ?_⟩
    rw [hwhole, hlog, h1log]

/-- C3 witness: a MISS, then the HIT from parent A, then a late MISS — the
late MISS has no effect, hit is parent A, the selection is finalized, and
the appended records avoid the parent-miss codes. -/
theorem C3_witness :
    deliverReplies baseEnv (rsC3pre ++ hitReplyA :: qsC3) (waitSt 3) =
        deliverReplies baseEnv (rsC3pre ++ [hitReplyA]) (waitSt 3) ∧
    (deliverReplies baseEnv (rsC3pre ++ hitReplyA :: qsC3) (waitSt 3)).hit =
        some hitReplyA.sender ∧
    (deliverReplies baseEnv (rsC3pre ++ hitReplyA :: qsC3) (waitSt 3)).hitKind =
        hitReplyA.kind ∧
    (deliverReplies baseEnv (rsC3pre ++ hitReplyA :: qsC3) (waitSt 3)).freed = true ∧
    ∃ fs extra,
      (fs = FwdServer.mk none .closestDirect ∨
        fs = FwdServer.mk (some hitReplyA.sender)
          (if hitReplyA.kind = .parent then .parentHit else .siblingHit)) ∧
      NoMissCode (fs :: extra) ∧
      (deliverReplies baseEnv (rsC3pre ++ hitReplyA :: qsC3) (waitSt 3)).log =
        (waitSt 3).log ++ fs :: extra :=
  C3_hit_finalizes baseEnv (waitSt 3) waitingEntry rsC3pre qsC3 hitReplyA rfl rfl
    (Or.inr rfl) rfl (by decide) (by decide)

/-- C8 counterexample: a waiting context with the timeout event pending
receives a HIT, finalizes and is freed — yet the event is still pending
afterwards (it was never cancelled), because finalization marked the entry
PING_DONE before peerSelectStateFree ran and the free routine only cancels
while the entry is still PING_WAITING. -/
theorem C8_counterexample :
    stC8.timerPending = true ∧
    (deliverReplies baseEnv [hitReplyA] stC8).freed = true ∧
    (deliverReplies baseEnv [hitReplyA] stC8).timerPending = true ∧
    (deliverReplies baseEnv [hitReplyA] stC8).entry = none := by decide

/-- C8 (amended): peerSelectStateFree cancels the pending peerPingTimeout
event only when the entry is still PING_WAITING at free time; every
finalization of a waiting context through peerSelectFoo — a recorded HIT
and quorum (n_recv reaching n_replies_expected) alike — frees the context
but leaves the pending-event flag exactly as it was, because the entry is
marked PING_DONE before freeing; in particular a non-HIT reply that
completes the quorum finalizes with the timer event still pending. -/
theorem C8_timer_cancellation :
    (∀ st : PsState,
      (peerSelectStateFree st).timerPending =
        if entryPing st = some .waiting then false else st.timerPending) ∧
    (∀ (env : Env) (st : PsState) (e : Entry),
      st.entry = some e → e.pingStatus = .waiting → st.direct ≠ .unknown →
      (peerSelectFoo env st).1.freed = true ∧
      (peerSelectFoo env st).1.timerPending = st.timerPending) ∧
    (∀ (env : Env) (r : IcpReply) (st : PsState) (e : Entry),
      st.entry = some e → e.pingStatus = .waiting → st.direct ≠ .unknown →
      r.op ≠ .hitOp → st.ping.nRecv + 1 = st.ping.nRepliesExpected →
      (peerHandleIcpReply env r st).freed = true ∧
      (peerHandleIcpReply env r st).timerPending = st.timerPending) := by
  refine ⟨free_timer, ?_, ?_⟩
  · intro env st e he hew hd
    obtain ⟨_, hf, _, ht⟩ := foo_waiting_final env st e he hew hd
    exact ⟨hf, ht⟩
  · intro env r st e he hew hd hop hq
    obtain ⟨hf, _, ht⟩ := handler_quorum_final env r st e he hew hd hop hq
    exact ⟨hf, ht⟩

/-- C8 witness: a waiting context with the timer pending and a HIT recorded
is freed by peerSelectFoo with its pending-event flag unchanged (still
true); and a waiting one-reply context with the timer pending that receives
its quorum-completing MISS is freed by peerHandleIcpReply with the flag
likewise unchanged. -/
theorem C8_witness :
    ((peerSelectFoo baseEnv stC8h).1.freed = true ∧
      (peerSelectFoo baseEnv stC8h).1.timerPending = stC8h.timerPending) ∧
    ((peerHandleIcpReply baseEnv (missReply peerB 30) stC8).freed = true ∧
      (peerHandleIcpReply baseEnv (missReply peerB 30) stC8).timerPending =
        stC8.timerPending) :=
  ⟨C8_timer_cancellation.2.1 baseEnv stC8h waitingEntry rfl rfl (by decide),
   C8_timer_cancellation.2.2 baseEnv (missReply peerB 30) stC8 waitingEntry rfl rfl
     (by decide) (by decide) (by decide)⟩
